import Mathlib

/-!
Verification development for the telemetry time-series accumulation and
delta-encoding engine of `avcDaemon/timeseriesData.c`.

The development shallowly embeds the module's data model and operations:

* timestamps are `u64` values kept in a doubly-linked list, embedded as
  `List Nat`; the insertion routine `AddTimestamp` mirrors the C loop
  (including its comparison against the *next* node);
* each resource column keeps its samples in a `le_hashmap` whose hash and
  equality callbacks reinterpret the 8-byte timestamp key as an IEEE-754
  double (`HashmapEqualsDouble`); the map is embedded as an association
  list looked up through the double-equality relation `dblEq` on 64-bit
  bit patterns;
* the CBOR encoder (tinycbor) is embedded as a function from records to a
  flat stream of CBOR items plus a byte serialisation; the fixed 4096-byte
  buffer bound (`MAX_CBOR_BUFFER_NUMBYTES`) decides `LE_NO_MEMORY`;
* C `double` arithmetic (`timestampFactor` and per-column `factor` are
  doubles, float samples are doubles) is embedded by an exact executable
  model of IEEE-754 binary64 on 64-bit bit patterns: decode to an exact
  scaled integer, operate exactly, round to nearest-even, re-encode.
  Where the C source has undefined behaviour (double→integer conversion
  out of range, signed overflow) the model picks a total convention and
  the theorems restrict to the defined range.
-/

set_option maxRecDepth 200000

namespace TSD

/-- Result codes of the Legato `le_result_t` values used by the module. -/
inductive LeResult
  | ok
  | noMemory
  | fault
  | overflow
  | notFound
  deriving DecidableEq, Repr

/-- Supported data types (`DataTypes_t`); `DATA_TYPE_NONE` is never produced
by the public API and is omitted. -/
inductive DataType
  | int
  | float
  | bool
  | str
  deriving DecidableEq, Repr

/-- A stored sample value (`Data_t`).  Float values are carried as the
64-bit pattern of the C `double`. -/
inductive Value
  | vInt : Int → Value
  | vFloat : Nat → Value
  | vBool : Bool → Value
  | vStr : String → Value
  deriving DecidableEq, Repr

def Value.typeOf : Value → DataType
  | .vInt _ => .int
  | .vFloat _ => .float
  | .vBool _ => .bool
  | .vStr _ => .str

/-- Extract the int member of the `Data_t` union; values are well-typed by
construction in reachable records, so the fallback never fires there. -/
def Value.asInt : Value → Int
  | .vInt i => i
  | _ => 0

def Value.asFloat : Value → Nat
  | .vFloat b => b
  | _ => 0

def Value.asBool : Value → Bool
  | .vBool b => b
  | _ => false

def Value.asStr : Value → String
  | .vStr s => s
  | _ => ""

/-! ## IEEE-754 binary64 model over 64-bit bit patterns -/

/-- Exponent field of a 64-bit double pattern. -/
def expBitsOf (x : Nat) : Nat := x / 2 ^ 52 % 2 ^ 11

/-- Fraction field of a 64-bit double pattern. -/
def fracOf (x : Nat) : Nat := x % 2 ^ 52

/-- Sign bit of a 64-bit double pattern. -/
def signBitOf (x : Nat) : Bool := decide (2 ^ 63 ≤ x % 2 ^ 64)

/-- The bit pattern encodes an IEEE NaN. -/
def isNanBits (x : Nat) : Bool := decide (expBitsOf x = 2047) && decide (fracOf x ≠ 0)

/-- Decoded value of a double: NaN, signed infinity, signed zero, or an
exact nonzero value `m * 2 ^ e`. -/
inductive F64Val
  | nan : F64Val
  | inf : Bool → F64Val
  | zero : Bool → F64Val
  | finite : Int → Int → F64Val
  deriving DecidableEq, Repr

/-- Decode a 64-bit pattern to its exact value. -/
def decodeF64 (x : Nat) : F64Val :=
  if expBitsOf x = 2047 then
    if fracOf x = 0 then .inf (signBitOf x) else .nan
  else if expBitsOf x = 0 then
    if fracOf x = 0 then .zero (signBitOf x)
    else .finite (if signBitOf x then -(fracOf x : Int) else (fracOf x : Int)) (-1074)
  else
    .finite (if signBitOf x then -((2 ^ 52 + fracOf x : Nat) : Int) else ((2 ^ 52 + fracOf x : Nat) : Int))
      ((expBitsOf x : Int) - 1075)

def signedBits (neg : Bool) (mag : Nat) : Nat := if neg then 2 ^ 63 + mag else mag

def infBits (neg : Bool) : Nat := signedBits neg 0x7FF0000000000000

def zeroBits (neg : Bool) : Nat := signedBits neg 0

def qNaNBits : Nat := 0x7FF8000000000000

/-- Bit pattern of the double `1.0`. -/
def oneBits : Nat := 0x3FF0000000000000

/-- Fuel-driven base-2 logarithm, structurally recursive so that concrete
bit patterns evaluate inside the kernel. -/
def log2F : Nat → Nat → Nat
  | 0, _ => 0
  | fuel + 1, n => if 2 ≤ n then log2F fuel (n / 2) + 1 else 0

/-- Base-2 logarithm (agrees with `Nat.log2`). -/
def natLog2 (n : Nat) : Nat := log2F n n

theorem log2F_eq (fuel n : Nat) (h : n ≤ fuel) : log2F fuel n = Nat.log2 n := by
  induction fuel generalizing n with
  | zero =>
      interval_cases n
      simp [log2F, Nat.log2]
  | succ fuel ih =>
      rw [log2F, Nat.log2]
      by_cases h2 : 2 ≤ n
      · rw [if_pos h2, if_pos h2, ih (n / 2) (by omega)]
      · rw [if_neg h2, if_neg h2]

theorem natLog2_eq (n : Nat) : natLog2 n = Nat.log2 n := log2F_eq n n le_rfl

/-- Division rounded to nearest, ties to even. -/
def roundHalfEvenDiv (n d : Nat) : Nat :=
  if d < 2 * (n % d) then n / d + 1
  else if 2 * (n % d) = d ∧ n / d % 2 = 1 then n / d + 1
  else n / d

/-- Final packing of a rounded mantissa `q` (`q < 2 ^ 53`) at exponent `e3`
(`-1074 ≤ e3`) into an unsigned double pattern, overflowing to infinity. -/
def encodeFinal (q : Nat) (e3 : Int) : Nat :=
  if q = 0 then 0
  else if q < 2 ^ 52 then q
  else if 2046 < e3 + 1075 then 0x7FF0000000000000
  else (e3 + 1075).toNat * 2 ^ 52 + (q - 2 ^ 52)

/-- Carry the mantissa overflow produced by rounding (`2 ^ 53 → 2 ^ 52`). -/
def finishRound (q : Nat) (e2 : Int) : Nat :=
  if q = 2 ^ 53 then encodeFinal (2 ^ 52) (e2 + 1) else encodeFinal q e2

/-- The round-to-nearest-even shift for magnitude `n` at exponent `e`:
enough to cut the mantissa to 53 bits, but never below exponent `-1074`. -/
def roundShift (n : Nat) (e : Int) : Int :=
  max ((natLog2 n : Int) - 52) (-1074 - e)

/-- Round the exact positive value `n * 2 ^ e` to the nearest binary64,
ties to even, returning the unsigned bit pattern. -/
def encodePosRound (n : Nat) (e : Int) : Nat :=
  if n = 0 then 0
  else if roundShift n e ≤ 0 then
    finishRound (n * 2 ^ (-(roundShift n e)).toNat) (e + roundShift n e)
  else
    finishRound (roundHalfEvenDiv n (2 ^ (roundShift n e).toNat)) (e + roundShift n e)

/-- Round the exact value `m * 2 ^ e` to the nearest binary64. -/
def encodeRound (m : Int) (e : Int) : Nat :=
  if m < 0 then 2 ^ 63 + encodePosRound (-m).toNat e else encodePosRound m.toNat e

/-- IEEE-754 binary64 multiplication on bit patterns. -/
def f64mul (a b : Nat) : Nat :=
  match decodeF64 a, decodeF64 b with
  | .nan, _ => qNaNBits
  | _, .nan => qNaNBits
  | .inf sa, .inf sb => infBits (xor sa sb)
  | .inf _, .zero _ => qNaNBits
  | .zero _, .inf _ => qNaNBits
  | .inf sa, .finite m _ => infBits (xor sa (decide (m < 0)))
  | .finite m _, .inf sb => infBits (xor (decide (m < 0)) sb)
  | .zero sa, .zero sb => zeroBits (xor sa sb)
  | .zero sa, .finite m _ => zeroBits (xor sa (decide (m < 0)))
  | .finite m _, .zero sb => zeroBits (xor (decide (m < 0)) sb)
  | .finite ma ea, .finite mb eb => encodeRound (ma * mb) (ea + eb)

/-- IEEE-754 binary64 subtraction on bit patterns (round to nearest even;
an exact zero difference of nonzero operands returns `+0`). -/
def f64sub (a b : Nat) : Nat :=
  match decodeF64 a, decodeF64 b with
  | .nan, _ => qNaNBits
  | _, .nan => qNaNBits
  | .inf sa, .inf sb => if sa = sb then qNaNBits else infBits sa
  | .inf sa, _ => infBits sa
  | _, .inf sb => infBits (!sb)
  | .zero sa, .zero sb => zeroBits (sa && !sb)
  | .zero _, .finite m e => encodeRound (-m) e
  | .finite m e, .zero _ => encodeRound m e
  | .finite ma ea, .finite mb eb =>
      encodeRound (ma * 2 ^ (ea - min ea eb).toNat - mb * 2 ^ (eb - min ea eb).toNat) (min ea eb)

/-- Conversion `uint64_t → double` (rounds to nearest for values ≥ 2^53). -/
def natToF64 (n : Nat) : Nat := encodePosRound n 0

/-- Conversion `int → double` (exact on the int32 range). -/
def intToF64 (m : Int) : Nat := encodeRound m 0

/-- Conversion `double → uint64_t`: truncation toward zero.  Negative,
NaN and infinite inputs are undefined behaviour in C; the model returns 0. -/
def f64ToNatTrunc (x : Nat) : Nat :=
  match decodeF64 x with
  | .finite m e =>
      if m < 0 then 0
      else if e < 0 then m.toNat / 2 ^ (-e).toNat else m.toNat * 2 ^ e.toNat
  | _ => 0

/-- Conversion `double → int`: truncation toward zero.  Out-of-range, NaN
and infinite inputs are undefined behaviour in C; the model totalises. -/
def f64ToIntTrunc (x : Nat) : Int :=
  match decodeF64 x with
  | .finite m e =>
      if e < 0 then Int.tdiv m (2 ^ (-e).toNat) else m * 2 ^ e.toNat
  | _ => 0

example : decodeF64 oneBits = .finite (2 ^ 52) (-52) := by decide
example : f64mul oneBits oneBits = oneBits := by decide
example : natToF64 10 = 0x4024000000000000 := by decide
example : f64ToNatTrunc (f64mul (natToF64 10) oneBits) = 10 := by decide
example : f64sub (natToF64 8) (natToF64 5) = natToF64 3 := by decide
example : f64ToIntTrunc (f64mul (intToF64 (-7)) oneBits) = -7 := by decide
example : isNanBits qNaNBits = true := by decide
example : isNanBits (2 ^ 63) = false := by decide

/-! ## The record data model -/

/-- Maximum number of bytes for CBOR-encoded time series data
(`MAX_CBOR_BUFFER_NUMBYTES`). -/
def MAX_CBOR_BUFFER_NUMBYTES : Nat := 4096

/-- Modelled from the spec: `NUM_TIME_SERIES_MAPS` is defined in
`timeseriesData.h`, which is not under `src/`; the spec fixes the output as
a map of exactly three named members `"h"`, `"f"`, `"s"`. -/
def NUM_TIME_SERIES_MAPS : Nat := 3

/-- Modelled from the spec: `LE_AVDATA_PATH_NAME_LEN` comes from the
`le_avdata` API definition, which is not under `src/`; the spec only states
that path names have a fixed length bound.  The concrete value is a
placeholder — every theorem using it exhibits behaviour uniform in the
bound (a path of length `≥` the bound overflows `le_utf8_Copy`). -/
def LE_AVDATA_PATH_NAME_LEN : Nat := 128

/-- Modelled from the spec: `LE_AVDATA_STRING_VALUE_LEN` comes from the
`le_avdata` API definition, not under `src/`; string samples are copied
into a buffer of this size by `le_utf8_Copy`, silently truncating. -/
def LE_AVDATA_STRING_VALUE_LEN : Nat := 256

/-- `HashmapEqualsDouble` on 64-bit key patterns: the C callback
reinterprets both 8-byte keys as `double` and compares with `==`.  Two
patterns compare equal iff neither is a NaN and they are either identical
or both encode a zero (`+0.0 == -0.0`). -/
def dblEq (a b : Nat) : Bool :=
  !isNanBits a && !isNanBits b &&
    (decide (a = b) ||
      ((decide (a = 0) || decide (a = 2 ^ 63)) && (decide (b = 0) || decide (b = 2 ^ 63))))

example : dblEq 0 (2 ^ 63) = true := by decide
example : dblEq qNaNBits qNaNBits = false := by decide
example : dblEq 5 5 = true := by decide
example : dblEq 5 6 = false := by decide

/-- `le_hashmap_Get` over the association-list embedding of the per-column
data table (keys compared through `HashmapEqualsDouble`). -/
def getData : List (Nat × Value) → Nat → Option Value
  | [], _ => none
  | (k0, v0) :: rest, k => if dblEq k0 k then some v0 else getData rest k

/-- `le_hashmap_ContainsKey`. -/
def containsKeyData (m : List (Nat × Value)) (k : Nat) : Bool := (getData m k).isSome

/-- `le_hashmap_Put`: replaces the value of the first equal key (keeping the
stored key, as the C hashmap does), otherwise adds a new entry. -/
def putData : List (Nat × Value) → Nat → Value → List (Nat × Value)
  | [], k, v => [(k, v)]
  | (k0, v0) :: rest, k, v => if dblEq k0 k then (k0, v) :: rest else (k0, v0) :: putData rest k v

/-- `le_hashmap_Remove`: removes the first entry with an equal key. -/
def removeData : List (Nat × Value) → Nat → List (Nat × Value)
  | [], _ => []
  | (k0, v0) :: rest, k => if dblEq k0 k then rest else (k0, v0) :: removeData rest k

/-- One resource column (`ResourceData_t`): name, fixed type, sparse
timestamp-keyed data table, scaling factor (a double bit pattern). -/
structure ResourceData where
  name : String
  type : DataType
  data : List (Nat × Value)
  factor : Nat
  deriving DecidableEq, Repr

/-- One record (`RecordData_t`): the sorted timestamp list, the
creation-ordered resource list, the timestamp factor (a double bit
pattern) and the `isEncoded` cache flag.  The CBOR scratch buffer and
encoder cursors are transient and not part of the observable state. -/
structure RecordData where
  timestampList : List Nat
  resourceList : List ResourceData
  timestampFactor : Nat
  isEncoded : Bool
  deriving DecidableEq, Repr

/-- Inner loop of `AddTimestamp` for a non-empty list: at each node, if a
next node exists and the new timestamp is smaller than the *next* node's
value, insert before the next node (i.e. after the current one); at the
last node, append. -/
def addAfterFirst : List Nat → Nat → List Nat
  | [], ts => [ts]
  | [a], ts => [a, ts]
  | a :: b :: rest, ts => if ts < b then a :: ts :: b :: rest else a :: addAfterFirst (b :: rest) ts

/-- `AddTimestamp`: no-op if the timestamp is already present (integer
comparison via `GetTimestamp`); otherwise queue into the empty list or run
the insertion loop. -/
def AddTimestamp (l : List Nat) (ts : Nat) : List Nat :=
  if ts ∈ l then l
  else
    match l with
    | [] => [ts]
    | _ :: _ => addAfterFirst l ts

/-- `DeleteTimestamp`: remove the single matching entry (the C loop stops
at the first match). -/
def DeleteTimestamp : List Nat → Nat → List Nat
  | [], _ => []
  | a :: rest, ts => if a = ts then rest else a :: DeleteTimestamp rest ts

/-- `GetResourceDataTimestampCount`: number of columns holding a value for
this timestamp key. -/
def GetResourceDataTimestampCount (r : RecordData) (ts : Nat) : Nat :=
  (r.resourceList.filter fun c => containsKeyData c.data ts).length

/-- Loop of `DeleteResourceData`: at the first column whose name matches,
remove the value stored for the timestamp (if any); if the column's table
becomes empty, the column itself is released and removed from the list. -/
def deleteResourceLoop : List ResourceData → String → Nat → List ResourceData
  | [], _, _ => []
  | c :: rest, path, ts =>
    if c.name = path then
      if containsKeyData c.data ts then
        if (removeData c.data ts).length = 0 then rest
        else { c with data := removeData c.data ts } :: rest
      else c :: rest
    else c :: deleteResourceLoop rest path ts

/-- `DeleteResourceData`. -/
def DeleteResourceData (r : RecordData) (path : String) (ts : Nat) : RecordData :=
  { r with resourceList := deleteResourceLoop r.resourceList path ts }

/-- `DeleteData`: delete the value for `(path, ts)`; if no column holds a
value for the timestamp afterwards, delete the timestamp entry too. -/
def DeleteData (r : RecordData) (path : String) (ts : Nat) : RecordData :=
  if ts ∈ r.timestampList then
    if GetResourceDataTimestampCount (DeleteResourceData r path ts) ts = 0 then
      { DeleteResourceData r path ts with
          timestampList := DeleteTimestamp (DeleteResourceData r path ts).timestampList ts }
    else DeleteResourceData r path ts
  else r

/-- `ResetRecord`: release all resources and timestamps, reset the
timestamp factor to 1, invalidate the cache. -/
def ResetRecord (_ : RecordData) : RecordData :=
  { timestampList := [], resourceList := [], timestampFactor := oneBits, isEncoded := false }

/-- `timeSeries_Create`: a fresh empty record (timestamp factor 1). -/
def timeSeries_Create : RecordData :=
  { timestampList := [], resourceList := [], timestampFactor := oneBits, isEncoded := false }

/-! ## The CBOR encoder -/

/-- One emitted CBOR data item (tinycbor appends of the `Encode` path). -/
inductive Item
  | uintI : Nat → Item
  | intI : Int → Item
  | doubleI : Nat → Item
  | boolI : Bool → Item
  | textI : String → Item
  | arrayHead : Nat → Item
  | mapHead : Nat → Item
  deriving DecidableEq, Repr

/-- Big-endian byte expansion, `k` bytes. -/
def beBytes : Nat → Nat → List Nat
  | 0, _ => []
  | k + 1, v => beBytes k (v / 256) ++ [v % 256]

/-- CBOR head for major type `major` with argument `v` (tinycbor chooses
the smallest width). -/
def natCborHead (major v : Nat) : List Nat :=
  if v < 24 then [major * 32 + v]
  else if v < 2 ^ 8 then (major * 32 + 24) :: beBytes 1 v
  else if v < 2 ^ 16 then (major * 32 + 25) :: beBytes 2 v
  else if v < 2 ^ 32 then (major * 32 + 26) :: beBytes 4 v
  else (major * 32 + 27) :: beBytes 8 v

/-- Bytes of a text payload.  Strings in this development are ASCII, where
`strlen` equals the character count; the embedding uses the character
codes as bytes. -/
def strBytes (s : String) : List Nat := s.toList.map Char.toNat

/-- Byte serialisation of one CBOR item (`cbor_encode_uint`,
`cbor_encode_int`, `cbor_encode_double` — always the 9-byte form —,
`cbor_encode_boolean`, `cbor_encode_text_string`, and the fixed-length
array/map heads; closing a fixed-length container emits nothing). -/
def itemBytes : Item → List Nat
  | .uintI n => natCborHead 0 (n % 2 ^ 64)
  | .intI z => if 0 ≤ z then natCborHead 0 (z.toNat % 2 ^ 64) else natCborHead 1 ((-z - 1).toNat % 2 ^ 64)
  | .doubleI bits => 0xFB :: beBytes 8 (bits % 2 ^ 64)
  | .boolI b => [if b then 0xF5 else 0xF4]
  | .textI s => natCborHead 3 (strBytes s).length ++ strBytes s
  | .arrayHead n => natCborHead 4 n
  | .mapHead n => natCborHead 5 n

/-- `GetResourceCount`. -/
def GetResourceCount (r : RecordData) : Nat := r.resourceList.length

/-- `GetTimestampCount`. -/
def GetTimestampCount (r : RecordData) : Nat := r.timestampList.length

/-- `EncodeResourceNameToCborArray`: one text item per column, in list
order. -/
def encodeHeaderItems (l : List ResourceData) : List Item := l.map fun c => .textI c.name

/-- `EncodeFactorToCborArray`: the timestamp factor, then each column's
factor in list order (all doubles). -/
def encodeFactorItems (r : RecordData) : List Item :=
  .doubleI r.timestampFactor :: (r.resourceList.map fun c => .doubleI c.factor)

/-- Encoded timestamp of one sample row: first row is
`timestamp * timestampFactor` computed in double arithmetic and converted
back to `uint64_t`; later rows first form the `uint64_t` difference from
the previous row, truncate it to the 32-bit `uint deltaTimestamp`, then
multiply by the double factor. -/
def tsEncVal (tsFactor : Nat) (prev : Option Nat) (t : Nat) : Nat :=
  match prev with
  | none => f64ToNatTrunc (f64mul (natToF64 t) tsFactor)
  | some p => f64ToNatTrunc (f64mul (natToF64 ((2 ^ 64 + t - p) % 2 ^ 64 % 2 ^ 32)) tsFactor)

/-- `EncodeResourceDefaultValue`: the type's default (0 / 0.0 / false /
empty string). -/
def defaultItem : DataType → Item
  | .int => .intI 0
  | .float => .doubleI 0
  | .bool => .boolI false
  | .str => .textI ""

/-- The 32-bit `int` subtraction `valuePtr->intValue - prevIntValue` in
`EncodeResourceDeltaValue`: an out-of-range difference wraps into
`[-2^31, 2^31)` (signed overflow is undefined behaviour in C; every real
target wraps two's-complement). -/
def wrap32 (d : Int) : Int := (d + 2 ^ 31) % 2 ^ 32 - 2 ^ 31

/-- `EncodeResourceDeltaValue`: int and float are emitted as the delta
from the value at the previous row (0 when the column has no value there),
scaled by the column factor in double arithmetic; for the very first row
int is scaled by the factor while float is emitted raw; bool and string
are emitted raw.  The int difference is computed in a 32-bit `int`
(`wrap32`) before the promotion to double for the factor scaling. -/
def deltaItem (c : ResourceData) (prev : Option Nat) (t : Nat) : Item :=
  match c.type with
  | .int =>
      match prev with
      | none => .intI (f64ToIntTrunc (f64mul (intToF64 (((getData c.data t).getD (.vInt 0)).asInt)) c.factor))
      | some p =>
          .intI (f64ToIntTrunc (f64mul (intToF64 (wrap32 (((getData c.data t).getD (.vInt 0)).asInt -
            (if containsKeyData c.data p then ((getData c.data p).getD (.vInt 0)).asInt else 0)))) c.factor))
  | .float =>
      match prev with
      | none => .doubleI (((getData c.data t).getD (.vFloat 0)).asFloat)
      | some p =>
          .doubleI (f64mul (f64sub (((getData c.data t).getD (.vFloat 0)).asFloat)
            (if containsKeyData c.data p then ((getData c.data p).getD (.vFloat 0)).asFloat else 0)) c.factor)
  | .bool => .boolI (((getData c.data t).getD (.vBool false)).asBool)
  | .str => .textI (((getData c.data t).getD (.vStr "")).asStr)

/-- Per-column item of one sample row (`EncodeResourceDataToCborArray`
inner loop): default when the column has no value for this timestamp,
delta value otherwise. -/
def valueItemFor (c : ResourceData) (prev : Option Nat) (t : Nat) : Item :=
  if containsKeyData c.data t then deltaItem c prev t else defaultItem c.type

/-- One sample row: the encoded timestamp, then one value per column in
list order. -/
def sampleRowItems (r : RecordData) (prev : Option Nat) (t : Nat) : List Item :=
  .uintI (tsEncVal r.timestampFactor prev t) :: (r.resourceList.map fun c => valueItemFor c prev t)

/-- Outer loop of `EncodeResourceDataToCborArray`: rows in timestamp-list
order, tracking the previous row's timestamp. -/
def sampleLoop (r : RecordData) : Option Nat → List Nat → List Item
  | _, [] => []
  | prev, t :: rest => sampleRowItems r prev t ++ sampleLoop r (some t) rest

/-- `EncodeResourceDataToCborArray`. -/
def encodeSampleItems (r : RecordData) : List Item := sampleLoop r none r.timestampList

/-- The full item stream of `Encode`: a three-member map `"h"`, `"f"`,
`"s"` with the header, factor and sample arrays. -/
def encodeItems (r : RecordData) : List Item :=
  [.mapHead NUM_TIME_SERIES_MAPS, .textI "h", .arrayHead (GetResourceCount r)]
    ++ encodeHeaderItems r.resourceList
    ++ [.textI "f", .arrayHead (GetResourceCount r + 1)]
    ++ encodeFactorItems r
    ++ [.textI "s", .arrayHead ((GetResourceCount r + 1) * GetTimestampCount r)]
    ++ encodeSampleItems r

/-- The byte stream written into the record's CBOR buffer. -/
def encodeBytes (r : RecordData) : List Nat := ((encodeItems r).map itemBytes).flatten

/-- Total number of bytes the encoder appends (the sum of the items'
byte counts — provably the length of `encodeBytes`, but computed without
materialising the whole stream). -/
def encodeSize (r : RecordData) : Nat :=
  ((encodeItems r).map fun it => (itemBytes it).length).foldl (fun a b => a + b) 0

theorem foldl_add_lengths (l : List (List Nat)) (a : Nat) :
    (l.map List.length).foldl (fun x y => x + y) a = a + l.flatten.length := by
  induction l generalizing a with
  | nil => simp
  | cons x rest ih =>
      simp only [List.map_cons, List.foldl_cons, List.flatten_cons, List.length_append]
      rw [ih]
      omega

theorem encodeSize_eq_length (r : RecordData) : encodeSize r = (encodeBytes r).length := by
  unfold encodeSize encodeBytes
  rw [show (encodeItems r).map (fun it => (itemBytes it).length)
      = ((encodeItems r).map itemBytes).map List.length from by rw [List.map_map]; rfl]
  rw [foldl_add_lengths]
  omega

/-- `Encode`: no-op when the cache is valid; otherwise re-encode from
scratch.  tinycbor reports `CborErrorOutOfMemory` (mapped to
`LE_NO_MEMORY`) at the first append that would exceed the fixed buffer,
i.e. exactly when the total byte stream exceeds the bound; with
consistent container counts no other CBOR error can occur. -/
def Encode (r : RecordData) : LeResult × RecordData :=
  if r.isEncoded then (.ok, r)
  else if encodeSize r ≤ MAX_CBOR_BUFFER_NUMBYTES then (.ok, { r with isEncoded := true })
  else (.noMemory, r)

/-! ## Sample ingestion -/

/-- `GetResourceData`: `LE_FAULT` if the path exists with a different
type, `LE_OK` if it exists with the requested type, `LE_NOT_FOUND`
otherwise. -/
def GetResourceData (r : RecordData) (path : String) (t : DataType) : LeResult :=
  match r.resourceList.find? fun c => c.name == path with
  | none => .notFound
  | some c => if c.type ≠ t then .fault else .ok

/-- Default factor of a new column: 0 for string/bool, the double 1.0
otherwise. -/
def factorBitsInit : DataType → Nat
  | .str => 0
  | .bool => 0
  | _ => oneBits

/-- `CreateResourceData`: fails with `LE_OVERFLOW` (before queueing the
column) when the path does not fit the name buffer; otherwise appends a
fresh column with an empty data table. -/
def CreateResourceData (r : RecordData) (path : String) (t : DataType) : LeResult × RecordData :=
  if LE_AVDATA_PATH_NAME_LEN ≤ path.length then (.overflow, r)
  else (.ok, { r with resourceList := r.resourceList ++ [⟨path, t, [], factorBitsInit t⟩] })

/-- Apply a function to the first column whose name matches. -/
def updateColumn : List ResourceData → String → (ResourceData → ResourceData) → List ResourceData
  | [], _, _ => []
  | c :: rest, path, f => if c.name = path then f c :: rest else c :: updateColumn rest path f

/-- `Add{Int,Float,Bool,String}ResourceData`: look up the timestamp node
(`LE_FAULT` if absent), upsert the value into the column's table,
invalidate the cache and re-encode; on `LE_NO_MEMORY` delete the value
just written (and the timestamp if it carried no other value) and leave
the cache invalid. -/
def addResourceValue (r : RecordData) (path : String) (v : Value) (ts : Nat) : LeResult × RecordData :=
  if ts ∈ r.timestampList then
    if (Encode { r with
        resourceList := updateColumn r.resourceList path fun c => { c with data := putData c.data ts v },
        isEncoded := false }).1 = .noMemory then
      (.noMemory, { DeleteData (Encode { r with
        resourceList := updateColumn r.resourceList path fun c => { c with data := putData c.data ts v },
        isEncoded := false }).2 path ts with isEncoded := false })
    else
      Encode { r with
        resourceList := updateColumn r.resourceList path fun c => { c with data := putData c.data ts v },
        isEncoded := false }
  else (.fault, r)

/-- Common body of `timeSeries_Add{Int,Float,Bool,String}`: resolve the
column (type check), insert the timestamp, create the column when absent
(the post-creation re-lookup in the C code cannot fail and is elided),
then add the value. -/
def addSample (r : RecordData) (path : String) (v : Value) (ts : Nat) : LeResult × RecordData :=
  if GetResourceData r path v.typeOf = .fault then (.fault, r)
  else
    if GetResourceData r path v.typeOf = .notFound then
      if (CreateResourceData { r with timestampList := AddTimestamp r.timestampList ts }
          path v.typeOf).1 = .ok then
        addResourceValue (CreateResourceData { r with timestampList := AddTimestamp r.timestampList ts }
          path v.typeOf).2 path v ts
      else
        CreateResourceData { r with timestampList := AddTimestamp r.timestampList ts } path v.typeOf
    else
      addResourceValue { r with timestampList := AddTimestamp r.timestampList ts } path v ts

/-- `timeSeries_AddInt`. -/
def timeSeries_AddInt (r : RecordData) (path : String) (value : Int) (ts : Nat) : LeResult × RecordData :=
  addSample r path (.vInt value) ts

/-- `timeSeries_AddFloat` (the value is a double bit pattern). -/
def timeSeries_AddFloat (r : RecordData) (path : String) (value : Nat) (ts : Nat) : LeResult × RecordData :=
  addSample r path (.vFloat value) ts

/-- `timeSeries_AddBool`. -/
def timeSeries_AddBool (r : RecordData) (path : String) (value : Bool) (ts : Nat) : LeResult × RecordData :=
  addSample r path (.vBool value) ts

/-- `timeSeries_AddString` (`le_utf8_Copy` silently truncates the stored
string to the value buffer; for the ASCII strings of this development the
byte bound is the character bound). -/
def timeSeries_AddString (r : RecordData) (path : String) (value : String) (ts : Nat) : LeResult × RecordData :=
  addSample r path (.vStr (String.mk (value.toList.take (LE_AVDATA_STRING_VALUE_LEN - 1)))) ts

/-- `timeSeries_PushRecord`: encode (cached), compress (the deflate step
is external and does not touch the record), hand the bytes to
`avcClient_Push` — its result is the `sendResult` parameter — and reset
the record only on transport success. -/
def timeSeries_PushRecord (r : RecordData) (sendResult : LeResult) : LeResult × RecordData :=
  if (Encode r).1 = .ok then
    if sendResult = .ok then (.ok, ResetRecord (Encode r).2) else (sendResult, (Encode r).2)
  else Encode r

example : GetResourceData timeSeries_Create "x" .int = .notFound := by decide
example : (CreateResourceData timeSeries_Create "x" .int).1 = .ok := by decide
example : AddTimestamp [] 10 = [10] := by decide
example : (encodeBytes timeSeries_Create).length = 19 := by decide
example : (Encode timeSeries_Create).1 = .ok := by decide
example : tsEncVal oneBits none 10 = 10 := by decide

example : (addResourceValue { timeSeries_Create with timestampList := [10], resourceList := [⟨"x", .int, [], oneBits⟩] } "x" (.vInt 1) 10).1 = .ok := by decide
example : (addSample timeSeries_Create "x" (.vInt 1) 10).1 = .ok := by decide

/-! ## Facts about the binary64 model -/

theorem natLog2_spec (n : Nat) (h : n ≠ 0) : 2 ^ natLog2 n ≤ n ∧ n < 2 ^ (natLog2 n + 1) := by
  rw [natLog2_eq]
  exact ⟨Nat.log2_self_le h, (Nat.log2_lt h).mp (Nat.lt_succ_self _)⟩

theorem natLog2_eq_of (n k : Nat) (h1 : 2 ^ k ≤ n) (h2 : n < 2 ^ (k + 1)) : natLog2 n = k := by
  have hn : n ≠ 0 := by
    have := Nat.pos_pow_of_pos (n := 2) k (by omega)
    omega
  rw [natLog2_eq]
  have ha := (Nat.le_log2 hn).mpr h1
  have hb := (Nat.log2_lt hn).mpr h2
  omega

theorem roundHalfEvenDiv_mul (q d : Nat) (hd : 0 < d) : roundHalfEvenDiv (q * d) d = q := by
  unfold roundHalfEvenDiv
  rw [Nat.mul_mod_left, Nat.mul_div_cancel q hd]
  rw [if_neg (by omega), if_neg (by rintro ⟨h, _⟩; omega)]

theorem decode_oneBits : decodeF64 oneBits = .finite (2 ^ 52) (-52) := by decide

/-- Unsigned field decomposition of a pattern below `2 ^ 63`. -/
theorem bits_decomp_pos (x : Nat) (hx : x < 2 ^ 63) :
    x = expBitsOf x * 2 ^ 52 + fracOf x ∧ signBitOf x = false := by
  unfold expBitsOf fracOf signBitOf
  constructor
  · omega
  · simp only [decide_eq_false_iff_not]
    omega

/-- Field values of a pattern built from exponent and fraction fields. -/
theorem fields_build (eb f : Nat) (heb : eb < 2 ^ 11) (hf : f < 2 ^ 52) :
    expBitsOf (eb * 2 ^ 52 + f) = eb ∧ fracOf (eb * 2 ^ 52 + f) = f ∧
      signBitOf (eb * 2 ^ 52 + f) = false := by
  unfold expBitsOf fracOf signBitOf
  refine ⟨by omega, by omega, ?_⟩
  simp only [decide_eq_false_iff_not]
  omega

/-- Setting the sign bit leaves exponent and fraction fields unchanged. -/
theorem fields_neg (u : Nat) (hu : u < 2 ^ 63) :
    expBitsOf (2 ^ 63 + u) = expBitsOf u ∧ fracOf (2 ^ 63 + u) = fracOf u ∧
      signBitOf (2 ^ 63 + u) = true := by
  unfold expBitsOf fracOf signBitOf
  refine ⟨by omega, by omega, ?_⟩
  simp only [decide_eq_true_eq]
  omega

theorem decodeF64_normal (x : Nat) (h1 : expBitsOf x ≠ 2047) (h2 : expBitsOf x ≠ 0)
    (h3 : signBitOf x = false) :
    decodeF64 x = .finite ((2 ^ 52 + fracOf x : Nat) : Int) ((expBitsOf x : Int) - 1075) := by
  unfold decodeF64
  rw [if_neg h1, if_neg h2, h3]
  simp

theorem decodeF64_normal_neg (x : Nat) (h1 : expBitsOf x ≠ 2047) (h2 : expBitsOf x ≠ 0)
    (h3 : signBitOf x = true) :
    decodeF64 x = .finite (-((2 ^ 52 + fracOf x : Nat) : Int)) ((expBitsOf x : Int) - 1075) := by
  unfold decodeF64
  rw [if_neg h1, if_neg h2, h3]
  simp

theorem decodeF64_subnormal (x : Nat) (h1 : expBitsOf x = 0) (h2 : fracOf x ≠ 0)
    (h3 : signBitOf x = false) :
    decodeF64 x = .finite ((fracOf x : Nat) : Int) (-1074) := by
  unfold decodeF64
  rw [if_neg (by omega), if_pos h1, if_neg h2, h3]
  simp

theorem decodeF64_subnormal_neg (x : Nat) (h1 : expBitsOf x = 0) (h2 : fracOf x ≠ 0)
    (h3 : signBitOf x = true) :
    decodeF64 x = .finite (-((fracOf x : Nat) : Int)) (-1074) := by
  unfold decodeF64
  rw [if_neg (by omega), if_pos h1, if_neg h2, h3]
  simp

theorem decodeF64_zero (x : Nat) (h1 : expBitsOf x = 0) (h2 : fracOf x = 0) :
    decodeF64 x = .zero (signBitOf x) := by
  unfold decodeF64
  rw [if_neg (by omega), if_pos h1, if_pos h2]

theorem decodeF64_inf (x : Nat) (h1 : expBitsOf x = 2047) (h2 : fracOf x = 0) :
    decodeF64 x = .inf (signBitOf x) := by
  unfold decodeF64
  rw [if_pos h1, if_pos h2]

theorem decodeF64_nan (x : Nat) (h1 : expBitsOf x = 2047) (h2 : fracOf x ≠ 0) :
    decodeF64 x = .nan := by
  unfold decodeF64
  rw [if_pos h1, if_neg h2]

/-- `finishRound` of a canonical normal mantissa/exponent pair. -/
theorem finishRound_normal_eq (q : Nat) (e : Int) (hlo : 2 ^ 52 ≤ q) (hhi : q < 2 ^ 53)
    (he1 : -1074 ≤ e) (he2 : e ≤ 971) :
    finishRound q e = (e + 1075).toNat * 2 ^ 52 + (q - 2 ^ 52) := by
  unfold finishRound encodeFinal
  rw [if_neg (by omega), if_neg (by omega), if_neg (by omega), if_neg (by omega)]

theorem decode_finishRound_normal (q : Nat) (e : Int) (hlo : 2 ^ 52 ≤ q) (hhi : q < 2 ^ 53)
    (he1 : -1074 ≤ e) (he2 : e ≤ 971) :
    decodeF64 (finishRound q e) = .finite (q : Int) e ∧ finishRound q e < 2 ^ 63 := by
  rw [finishRound_normal_eq q e hlo hhi he1 he2]
  have heb : (e + 1075).toNat < 2 ^ 11 := by omega
  have hf : q - 2 ^ 52 < 2 ^ 52 := by omega
  obtain ⟨hE, hF, hS⟩ := fields_build ((e + 1075).toNat) (q - 2 ^ 52) heb hf
  constructor
  · rw [decodeF64_normal _ (by omega) (by omega) hS, hE, hF]
    simp only [F64Val.finite.injEq]
    exact ⟨by omega, by omega⟩
  · omega

theorem finishRound_sub_eq (q : Nat) (h1 : 0 < q) (h2 : q < 2 ^ 52) :
    finishRound q (-1074) = q := by
  unfold finishRound encodeFinal
  rw [if_neg (by omega), if_neg (by omega), if_pos h2]

theorem decode_finishRound_sub (q : Nat) (h1 : 0 < q) (h2 : q < 2 ^ 52) :
    decodeF64 (finishRound q (-1074)) = .finite (q : Int) (-1074) ∧ finishRound q (-1074) < 2 ^ 63 := by
  rw [finishRound_sub_eq q h1 h2]
  have hq : expBitsOf q = 0 ∧ fracOf q = q ∧ signBitOf q = false := by
    have := fields_build 0 q (by omega) h2
    simpa using this
  constructor
  · rw [decodeF64_subnormal q hq.1 (by omega) hq.2.2, hq.2.1]
  · omega

/-- `encodePosRound` on an already-canonical normal pair just packs it. -/
theorem encodePosRound_canon (q : Nat) (e : Int) (hlo : 2 ^ 52 ≤ q) (hhi : q < 2 ^ 53)
    (he1 : -1074 ≤ e) :
    encodePosRound q e = finishRound q e := by
  have hL : natLog2 q = 52 := natLog2_eq_of q 52 hlo hhi
  unfold encodePosRound roundShift
  rw [hL, if_neg (by omega)]
  have hmax : max (((52 : Nat) : Int) - 52) (-1074 - e) = 0 := by omega
  rw [hmax, if_pos (by omega)]
  norm_num

/-- `encodePosRound` of a canonical mantissa shifted up by 52 bits divides
back down exactly. -/
theorem encodePosRound_shift52 (q : Nat) (e : Int) (hlo : 2 ^ 52 ≤ q) (hhi : q < 2 ^ 53)
    (he1 : -1074 ≤ e) :
    encodePosRound (q * 2 ^ 52) (e - 52) = finishRound q e := by
  have hL : natLog2 (q * 2 ^ 52) = 104 := by
    refine natLog2_eq_of _ 104 ?_ ?_
    · calc (2 : Nat) ^ 104 = 2 ^ 52 * 2 ^ 52 := by norm_num
      _ ≤ q * 2 ^ 52 := Nat.mul_le_mul_right _ hlo
    · calc q * 2 ^ 52 < 2 ^ 53 * 2 ^ 52 := (Nat.mul_lt_mul_right (by norm_num)).mpr hhi
      _ = 2 ^ 105 := by norm_num
  unfold encodePosRound roundShift
  rw [hL, if_neg (by positivity)]
  have hmax : max (((104 : Nat) : Int) - 52) (-1074 - (e - 52)) = 52 := by omega
  rw [hmax, if_neg (by omega)]
  have ht : ((52 : Int)).toNat = 52 := by omega
  rw [ht, roundHalfEvenDiv_mul q (2 ^ 52) (by norm_num)]
  norm_num

/-- Subnormal analogue of `encodePosRound_shift52`. -/
theorem encodePosRound_sub_shift52 (q : Nat) (h1 : 0 < q) (h2 : q < 2 ^ 52) :
    encodePosRound (q * 2 ^ 52) (-1126) = finishRound q (-1074) := by
  obtain ⟨hq1, hq2⟩ := natLog2_spec q (by omega)
  have hq52 : natLog2 q ≤ 51 := by
    by_contra hc
    push_neg at hc
    have : (2 : Nat) ^ 52 ≤ 2 ^ natLog2 q := Nat.pow_le_pow_right (by omega) (by omega)
    omega
  have hL : natLog2 (q * 2 ^ 52) = natLog2 q + 52 := by
    refine natLog2_eq_of _ _ ?_ ?_
    · calc (2 : Nat) ^ (natLog2 q + 52) = 2 ^ natLog2 q * 2 ^ 52 := by rw [Nat.pow_add]
      _ ≤ q * 2 ^ 52 := Nat.mul_le_mul hq1 le_rfl
    · calc q * 2 ^ 52 < 2 ^ (natLog2 q + 1) * 2 ^ 52 := (Nat.mul_lt_mul_right (by norm_num)).mpr hq2
      _ = 2 ^ (natLog2 q + 52 + 1) := by
          rw [← Nat.pow_add, show natLog2 q + 1 + 52 = natLog2 q + 52 + 1 from by omega]
  unfold encodePosRound roundShift
  rw [hL, if_neg (by positivity)]
  have hmax : max (((natLog2 q + 52 : Nat) : Int) - 52) (-1074 - (-1126)) = 52 := by
    push_cast
    omega
  rw [hmax, if_neg (by omega)]
  have ht : ((52 : Int)).toNat = 52 := by omega
  rw [ht, roundHalfEvenDiv_mul q (2 ^ 52) (by norm_num)]
  norm_num

/-- Characterisation of `natToF64` below `2 ^ 53` (exact encoding). -/
theorem natToF64_eq_finish (n : Nat) (h0 : 0 < n) (h : n < 2 ^ 53) :
    natToF64 n = finishRound (n * 2 ^ (52 - natLog2 n)) ((natLog2 n : Int) - 52) := by
  obtain ⟨hn1, hn2⟩ := natLog2_spec n (by omega)
  have hL52 : natLog2 n ≤ 52 := by
    by_contra hc
    push_neg at hc
    have : (2 : Nat) ^ 53 ≤ 2 ^ natLog2 n := Nat.pow_le_pow_right (by omega) (by omega)
    omega
  unfold natToF64 encodePosRound roundShift
  rw [if_neg (by omega)]
  have hmax : max ((natLog2 n : Int) - 52) (-1074 - 0) = (natLog2 n : Int) - 52 := by omega
  rw [hmax, if_pos (by omega)]
  have h1 : (-((natLog2 n : Int) - 52)).toNat = 52 - natLog2 n := by omega
  rw [h1]
  norm_num

/-- Mantissa bounds for the canonical form of `natToF64`. -/
theorem natToF64_q_bounds (n : Nat) (h0 : 0 < n) (h : n < 2 ^ 53) :
    2 ^ 52 ≤ n * 2 ^ (52 - natLog2 n) ∧ n * 2 ^ (52 - natLog2 n) < 2 ^ 53 := by
  obtain ⟨hn1, hn2⟩ := natLog2_spec n (by omega)
  have hL52 : natLog2 n ≤ 52 := by
    by_contra hc
    push_neg at hc
    have : (2 : Nat) ^ 53 ≤ 2 ^ natLog2 n := Nat.pow_le_pow_right (by omega) (by omega)
    omega
  constructor
  · have h52 : (2 : Nat) ^ 52 = 2 ^ natLog2 n * 2 ^ (52 - natLog2 n) := by
      rw [← Nat.pow_add, show natLog2 n + (52 - natLog2 n) = 52 from by omega]
    rw [h52]
    exact Nat.mul_le_mul hn1 le_rfl
  · calc n * 2 ^ (52 - natLog2 n) < 2 ^ (natLog2 n + 1) * 2 ^ (52 - natLog2 n) :=
        (Nat.mul_lt_mul_right (by positivity)).mpr hn2
    _ = 2 ^ 53 := by
        rw [← Nat.pow_add, show natLog2 n + 1 + (52 - natLog2 n) = 53 from by omega]

theorem natLog2_le_52 (n : Nat) (h : n < 2 ^ 53) : natLog2 n ≤ 52 := by
  rcases Nat.eq_zero_or_pos n with h0 | h0
  · subst h0
    decide
  obtain ⟨hn1, _⟩ := natLog2_spec n (by omega)
  by_contra hc
  push_neg at hc
  have : (2 : Nat) ^ 53 ≤ 2 ^ natLog2 n := Nat.pow_le_pow_right (by omega) (by omega)
  omega

/-- Reduce `f64ToNatTrunc` through a known decoding. -/
theorem f64ToNatTrunc_decode (x : Nat) (m e : Int) (h : decodeF64 x = .finite m e) :
    f64ToNatTrunc x =
      if m < 0 then 0 else if e < 0 then m.toNat / 2 ^ (-e).toNat else m.toNat * 2 ^ e.toNat := by
  unfold f64ToNatTrunc
  rw [h]

/-- Reduce `f64mul` through two known finite decodings. -/
theorem f64mul_decode_ff (a b : Nat) (ma ea mb eb : Int) (ha : decodeF64 a = .finite ma ea)
    (hb : decodeF64 b = .finite mb eb) : f64mul a b = encodeRound (ma * mb) (ea + eb) := by
  unfold f64mul
  rw [ha, hb]

theorem decode_natToF64 (n : Nat) (h0 : 0 < n) (h : n < 2 ^ 53) :
    decodeF64 (natToF64 n) =
      .finite ((n * 2 ^ (52 - natLog2 n) : Nat) : Int) ((natLog2 n : Int) - 52) ∧
      natToF64 n < 2 ^ 63 := by
  obtain ⟨hq1, hq2⟩ := natToF64_q_bounds n h0 h
  have hL52 := natLog2_le_52 n h
  rw [natToF64_eq_finish n h0 h]
  exact decode_finishRound_normal _ _ hq1 hq2 (by omega) (by omega)

theorem f64mul_natToF64_one (n : Nat) (h : n < 2 ^ 53) :
    f64mul (natToF64 n) oneBits = natToF64 n := by
  rcases Nat.eq_zero_or_pos n with h0 | h0
  · subst h0
    decide
  obtain ⟨hq1, hq2⟩ := natToF64_q_bounds n h0 h
  rw [f64mul_decode_ff _ _ _ _ _ _ (decode_natToF64 n h0 h).1 decode_oneBits]
  unfold encodeRound
  rw [if_neg (by rw [not_lt]; positivity)]
  have harg : (((n * 2 ^ (52 - natLog2 n) : Nat) : Int) * 2 ^ 52).toNat
      = n * 2 ^ (52 - natLog2 n) * 2 ^ 52 := by
    rw [show ((n * 2 ^ (52 - natLog2 n) : Nat) : Int) * 2 ^ 52
        = ((n * 2 ^ (52 - natLog2 n) * 2 ^ 52 : Nat) : Int) from by push_cast; ring]
    exact Int.toNat_natCast _
  rw [harg]
  have hexp : (natLog2 n : Int) - 52 + -52 = ((natLog2 n : Int) - 52) - 52 := by omega
  rw [hexp, encodePosRound_shift52 _ _ hq1 hq2 (by omega)]
  exact (natToF64_eq_finish n h0 h).symm

theorem f64ToNat_natToF64 (n : Nat) (h : n < 2 ^ 53) : f64ToNatTrunc (natToF64 n) = n := by
  rcases Nat.eq_zero_or_pos n with h0 | h0
  · subst h0
    decide
  rw [f64ToNatTrunc_decode _ _ _ (decode_natToF64 n h0 h).1]
  have hL52 := natLog2_le_52 n h
  rw [if_neg (by rw [not_lt]; positivity)]
  by_cases hL : natLog2 n = 52
  · rw [hL]
    rw [if_neg (by omega)]
    have : (((52 : Nat) : Int) - 52).toNat = 0 := by omega
    rw [this]
    push_cast
    simp
  · rw [if_pos (by omega)]
    have h1 : (-(((natLog2 n : Nat) : Int) - 52)).toNat = 52 - natLog2 n := by omega
    rw [h1]
    have h2 : (((n * 2 ^ (52 - natLog2 n) : Nat) : Int)).toNat = n * 2 ^ (52 - natLog2 n) :=
      Int.toNat_natCast _
    rw [h2, Nat.mul_div_cancel n (by positivity)]

theorem tsEncVal_one_first (t : Nat) (h : t < 2 ^ 53) : tsEncVal oneBits none t = t := by
  show f64ToNatTrunc (f64mul (natToF64 t) oneBits) = t
  rw [f64mul_natToF64_one t h, f64ToNat_natToF64 t h]

theorem tsEncVal_one_delta (p t : Nat) (hp : p ≤ t) (hd : t - p < 2 ^ 32) (_ht : t < 2 ^ 64) :
    tsEncVal oneBits (some p) t = t - p := by
  have harg : (2 ^ 64 + t - p) % 2 ^ 64 % 2 ^ 32 = t - p := by omega
  show f64ToNatTrunc (f64mul (natToF64 ((2 ^ 64 + t - p) % 2 ^ 64 % 2 ^ 32)) oneBits) = t - p
  rw [harg, f64mul_natToF64_one (t - p) (by omega), f64ToNat_natToF64 (t - p) (by omega)]
example :
    ((timeSeries_AddInt (timeSeries_AddInt timeSeries_Create "x" 1 10).2 "x" 2 5).2).timestampList
      = [10, 5] := by decide

/-- Unsigned/signed field decomposition of any 64-bit pattern. -/
theorem bits_decomp (x : Nat) (hx : x < 2 ^ 64) :
    x = (if signBitOf x then 2 ^ 63 else 0) + expBitsOf x * 2 ^ 52 + fracOf x := by
  by_cases h : signBitOf x = true
  · rw [if_pos h]
    unfold signBitOf at h
    simp only [decide_eq_true_eq] at h
    unfold expBitsOf fracOf
    omega
  · rw [if_neg h]
    unfold signBitOf at h
    simp only [decide_eq_true_eq] at h
    unfold expBitsOf fracOf
    omega

theorem toNat_cast_mul_pow52 (Q : Nat) : ((Q : Int) * 2 ^ 52).toNat = Q * 2 ^ 52 := by
  rw [show (Q : Int) * 2 ^ 52 = ((Q * 2 ^ 52 : Nat) : Int) from by push_cast; ring]
  exact Int.toNat_natCast _

/-- Reduce `f64ToIntTrunc` through a known decoding. -/
theorem f64ToIntTrunc_decode (x : Nat) (m e : Int) (h : decodeF64 x = .finite m e) :
    f64ToIntTrunc x =
      if e < 0 then Int.tdiv m (2 ^ (-e).toNat) else m * 2 ^ e.toNat := by
  unfold f64ToIntTrunc
  rw [h]

theorem intToF64_nonneg (n : Nat) : intToF64 ((n : Nat) : Int) = natToF64 n := by
  unfold intToF64 encodeRound
  rw [if_neg (by omega), Int.toNat_natCast]
  rfl

theorem intToF64_neg (n : Nat) (h0 : 0 < n) : intToF64 (-((n : Nat) : Int)) = 2 ^ 63 + natToF64 n := by
  unfold intToF64 encodeRound
  rw [if_pos (by omega), neg_neg, Int.toNat_natCast]
  rfl

/-- Decoding of the sign-flipped exact encoding of `n`. -/
theorem decode_neg_natToF64 (n : Nat) (h0 : 0 < n) (h : n < 2 ^ 53) :
    decodeF64 (2 ^ 63 + natToF64 n)
      = .finite (-((n * 2 ^ (52 - natLog2 n) : Nat) : Int)) ((natLog2 n : Int) - 52) := by
  obtain ⟨hq1, hq2⟩ := natToF64_q_bounds n h0 h
  have hL52 := natLog2_le_52 n h
  have hfin : natToF64 n
      = (((natLog2 n : Int) - 52) + 1075).toNat * 2 ^ 52 + (n * 2 ^ (52 - natLog2 n) - 2 ^ 52) := by
    rw [natToF64_eq_finish n h0 h, finishRound_normal_eq _ _ hq1 hq2 (by omega) (by omega)]
  have hflt : natToF64 n < 2 ^ 63 := (decode_natToF64 n h0 h).2
  obtain ⟨hE, hF, hS⟩ := fields_neg (natToF64 n) hflt
  obtain ⟨hE0, hF0, _⟩ := fields_build ((((natLog2 n : Int) - 52) + 1075).toNat)
    (n * 2 ^ (52 - natLog2 n) - 2 ^ 52) (by omega) (by omega)
  rw [decodeF64_normal_neg _ (by rw [hE, hfin, hE0]; omega) (by rw [hE, hfin, hE0]; omega) hS]
  rw [hE, hF, hfin, hE0, hF0]
  simp only [F64Val.finite.injEq]
  exact ⟨by omega, by omega⟩

theorem f64mul_neg_natToF64_one (n : Nat) (h0 : 0 < n) (h : n < 2 ^ 53) :
    f64mul (2 ^ 63 + natToF64 n) oneBits = 2 ^ 63 + natToF64 n := by
  obtain ⟨hq1, hq2⟩ := natToF64_q_bounds n h0 h
  rw [f64mul_decode_ff _ _ _ _ _ _ (decode_neg_natToF64 n h0 h) decode_oneBits]
  unfold encodeRound
  rw [if_pos (by
    have : (0 : Int) < ((n * 2 ^ (52 - natLog2 n) : Nat) : Int) := by
      have : 0 < n * 2 ^ (52 - natLog2 n) := by positivity
      omega
    nlinarith)]
  rw [show -(-((n * 2 ^ (52 - natLog2 n) : Nat) : Int) * 2 ^ 52)
      = ((n * 2 ^ (52 - natLog2 n) : Nat) : Int) * 2 ^ 52 from by ring]
  rw [toNat_cast_mul_pow52]
  have hexp : (natLog2 n : Int) - 52 + -52 = ((natLog2 n : Int) - 52) - 52 := by omega
  rw [hexp, encodePosRound_shift52 _ _ hq1 hq2 (by omega)]
  rw [← natToF64_eq_finish n h0 h]

/-- Truncating conversion undoes the exact signed encoding (`|d| < 2^53`). -/
theorem f64_int_chain (d : Int) (h : d.natAbs < 2 ^ 53) :
    f64ToIntTrunc (f64mul (intToF64 d) oneBits) = d := by
  rcases lt_trichotomy d 0 with hneg | hz | hpos
  · have hd : d = -(((-d).toNat : Nat) : Int) := by omega
    have h0 : 0 < (-d).toNat := by omega
    have h53 : (-d).toNat < 2 ^ 53 := by
      have := Int.natAbs_eq d
      omega
    rw [hd, intToF64_neg _ h0, f64mul_neg_natToF64_one _ h0 h53]
    rw [f64ToIntTrunc_decode _ _ _ (decode_neg_natToF64 _ h0 h53)]
    have hL52 := natLog2_le_52 (-d).toNat h53
    by_cases hL : natLog2 (-d).toNat = 52
    · rw [if_neg (by omega), hL]
      rw [show (((52 : Nat) : Int) - 52).toNat = 0 from by omega]
      norm_num
    · rw [if_pos (by omega)]
      rw [show (-((natLog2 (-d).toNat : Int) - 52)).toNat = 52 - natLog2 (-d).toNat from by omega]
      rw [show (((-d).toNat * 2 ^ (52 - natLog2 (-d).toNat) : Nat) : Int)
          = ((-d).toNat : Int) * ((2 ^ (52 - natLog2 (-d).toNat) : Nat) : Int) from by push_cast; ring]
      rw [show ((2 : Int) ^ (52 - natLog2 (-d).toNat)) = ((2 ^ (52 - natLog2 (-d).toNat) : Nat) : Int)
        from by push_cast; ring]
      rw [Int.neg_tdiv, Int.mul_tdiv_cancel _ (by positivity)]
  · subst hz
    decide
  · have hd : d = (((d.toNat : Nat) : Int)) := by omega
    have h0 : 0 < d.toNat := by omega
    have h53 : d.toNat < 2 ^ 53 := by
      have := Int.natAbs_eq d
      omega
    rw [hd, intToF64_nonneg, f64mul_natToF64_one _ h53]
    rw [f64ToIntTrunc_decode _ _ _ (decode_natToF64 _ h0 h53).1]
    have hL52 := natLog2_le_52 d.toNat h53
    by_cases hL : natLog2 d.toNat = 52
    · rw [if_neg (by omega), hL]
      rw [show (((52 : Nat) : Int) - 52).toNat = 0 from by omega]
      norm_num
    · rw [if_pos (by omega)]
      rw [show (-((natLog2 d.toNat : Int) - 52)).toNat = 52 - natLog2 d.toNat from by omega]
      rw [show ((d.toNat * 2 ^ (52 - natLog2 d.toNat) : Nat) : Int)
          = (d.toNat : Int) * ((2 ^ (52 - natLog2 d.toNat) : Nat) : Int) from by push_cast; ring]
      rw [show ((2 : Int) ^ (52 - natLog2 d.toNat)) = ((2 ^ (52 - natLog2 d.toNat) : Nat) : Int)
        from by push_cast; ring]
      rw [Int.mul_tdiv_cancel _ (by positivity)]

/-- Reduce `f64mul` of an infinity by a finite nonzero value. -/
theorem f64mul_decode_if (a b : Nat) (sa : Bool) (mb eb : Int) (ha : decodeF64 a = .inf sa)
    (hb : decodeF64 b = .finite mb eb) : f64mul a b = infBits (xor sa (decide (mb < 0))) := by
  unfold f64mul
  rw [ha, hb]

/-- Reduce `f64mul` of a zero by a finite nonzero value. -/
theorem f64mul_decode_zf (a b : Nat) (sa : Bool) (mb eb : Int) (ha : decodeF64 a = .zero sa)
    (hb : decodeF64 b = .finite mb eb) : f64mul a b = zeroBits (xor sa (decide (mb < 0))) := by
  unfold f64mul
  rw [ha, hb]

/-- Multiplying any non-NaN double by `1.0` is the identity, bit for bit. -/
theorem f64mul_one (x : Nat) (hx : x < 2 ^ 64) (hn : isNanBits x = false) :
    f64mul x oneBits = x := by
  have hdec := bits_decomp x hx
  have hexp : expBitsOf x < 2 ^ 11 := by
    unfold expBitsOf
    omega
  have hfrac : fracOf x < 2 ^ 52 := by
    unfold fracOf
    omega
  by_cases he47 : expBitsOf x = 2047
  · have hf0 : fracOf x = 0 := by
      unfold isNanBits at hn
      simp only [Bool.and_eq_false_iff, decide_eq_false_iff_not] at hn
      rcases hn with hn | hn
      · exact absurd he47 hn
      · simpa using hn
    rw [f64mul_decode_if _ _ _ _ _ (decodeF64_inf x he47 hf0) decode_oneBits]
    rw [show decide ((2 ^ 52 : Int) < 0) = false from by decide]
    rw [Bool.xor_false]
    cases hs : signBitOf x with
    | false =>
        rw [hs] at hdec
        norm_num at hdec
        unfold infBits signedBits
        rw [if_neg (by simp)]
        omega
    | true =>
        rw [hs] at hdec
        norm_num at hdec
        unfold infBits signedBits
        rw [if_pos rfl]
        omega
  · by_cases he0 : expBitsOf x = 0
    · by_cases hf0 : fracOf x = 0
      · rw [f64mul_decode_zf _ _ _ _ _ (decodeF64_zero x he0 hf0) decode_oneBits]
        rw [show decide ((2 ^ 52 : Int) < 0) = false from by decide]
        rw [Bool.xor_false]
        cases hs : signBitOf x with
        | false =>
            rw [hs] at hdec
            norm_num at hdec
            unfold zeroBits signedBits
            rw [if_neg (by simp)]
            omega
        | true =>
            rw [hs] at hdec
            norm_num at hdec
            unfold zeroBits signedBits
            rw [if_pos rfl]
            omega
      · -- subnormal
        have hq0 : 0 < fracOf x := by omega
        cases hs : signBitOf x with
        | false =>
            rw [f64mul_decode_ff _ _ _ _ _ _ (decodeF64_subnormal x he0 hf0 hs) decode_oneBits]
            unfold encodeRound
            rw [if_neg (by rw [not_lt]; positivity)]
            rw [toNat_cast_mul_pow52]
            rw [show (-1074 : Int) + -52 = -1126 from by omega]
            rw [encodePosRound_sub_shift52 _ hq0 hfrac, finishRound_sub_eq _ hq0 hfrac]
            rw [hs] at hdec
            norm_num at hdec
            omega
        | true =>
            rw [f64mul_decode_ff _ _ _ _ _ _ (decodeF64_subnormal_neg x he0 hf0 hs) decode_oneBits]
            unfold encodeRound
            rw [if_pos (by
              have : (0 : Int) < (fracOf x : Int) := by omega
              nlinarith)]
            rw [show -(-((fracOf x : Nat) : Int) * 2 ^ 52) = ((fracOf x : Nat) : Int) * 2 ^ 52
              from by ring]
            rw [toNat_cast_mul_pow52]
            rw [show (-1074 : Int) + -52 = -1126 from by omega]
            rw [encodePosRound_sub_shift52 _ hq0 hfrac, finishRound_sub_eq _ hq0 hfrac]
            rw [hs] at hdec
            norm_num at hdec
            omega
    · -- normal
      have hqlo : 2 ^ 52 ≤ 2 ^ 52 + fracOf x := by omega
      have hqhi : 2 ^ 52 + fracOf x < 2 ^ 53 := by omega
      have hee : (-1074 : Int) ≤ (expBitsOf x : Int) - 1075 := by omega
      have hfr : finishRound (2 ^ 52 + fracOf x) ((expBitsOf x : Int) - 1075)
          = expBitsOf x * 2 ^ 52 + fracOf x := by
        rw [finishRound_normal_eq _ _ hqlo hqhi hee (by omega)]
        have h1 : ((expBitsOf x : Int) - 1075 + 1075).toNat = expBitsOf x := by omega
        rw [h1]
        omega
      cases hs : signBitOf x with
      | false =>
          rw [f64mul_decode_ff _ _ _ _ _ _ (decodeF64_normal x he47 he0 hs) decode_oneBits]
          unfold encodeRound
          rw [if_neg (by rw [not_lt]; positivity)]
          rw [toNat_cast_mul_pow52]
          rw [show (expBitsOf x : Int) - 1075 + -52 = ((expBitsOf x : Int) - 1075) - 52 from by omega]
          rw [encodePosRound_shift52 _ _ hqlo hqhi hee, hfr]
          rw [hs] at hdec
          norm_num at hdec
          omega
      | true =>
          rw [f64mul_decode_ff _ _ _ _ _ _ (decodeF64_normal_neg x he47 he0 hs) decode_oneBits]
          unfold encodeRound
          rw [if_pos (by
            have : (0 : Int) < ((2 ^ 52 + fracOf x : Nat) : Int) := by
              have : (0 : Nat) < 2 ^ 52 + fracOf x := by omega
              omega
            nlinarith)]
          rw [show -(-((2 ^ 52 + fracOf x : Nat) : Int) * 2 ^ 52)
              = ((2 ^ 52 + fracOf x : Nat) : Int) * 2 ^ 52 from by ring]
          rw [toNat_cast_mul_pow52]
          rw [show (expBitsOf x : Int) - 1075 + -52 = ((expBitsOf x : Int) - 1075) - 52 from by omega]
          rw [encodePosRound_shift52 _ _ hqlo hqhi hee, hfr]
          rw [hs] at hdec
          norm_num at hdec
          omega

/-! ## List-level facts used by the rollback analysis -/

theorem mem_addAfterFirst (l : List Nat) (ts : Nat) : ts ∈ addAfterFirst l ts := by
  induction l with
  | nil => simp [addAfterFirst]
  | cons a rest ih =>
      cases rest with
      | nil => simp [addAfterFirst]
      | cons b rest2 =>
          show ts ∈ (if ts < b then a :: ts :: b :: rest2 else a :: addAfterFirst (b :: rest2) ts)
          by_cases h : ts < b
          · rw [if_pos h]
            simp
          · rw [if_neg h]
            simp only [List.mem_cons]
            right
            simpa using ih

theorem mem_AddTimestamp (l : List Nat) (ts : Nat) : ts ∈ AddTimestamp l ts := by
  unfold AddTimestamp
  by_cases h : ts ∈ l
  · rw [if_pos h]
    exact h
  · rw [if_neg h]
    cases l with
    | nil => simp
    | cons a rest => exact mem_addAfterFirst (a :: rest) ts

theorem DeleteTimestamp_addAfterFirst (l : List Nat) (ts : Nat) (h : ts ∉ l) :
    DeleteTimestamp (addAfterFirst l ts) ts = l := by
  induction l with
  | nil => simp [addAfterFirst, DeleteTimestamp]
  | cons a rest ih =>
      have ha : ¬(a = ts) := by
        simp only [List.mem_cons] at h
        tauto
      have hrest : ts ∉ rest := by
        simp only [List.mem_cons] at h
        tauto
      cases rest with
      | nil =>
          show DeleteTimestamp [a, ts] ts = [a]
          simp [DeleteTimestamp, ha]
      | cons b rest2 =>
          show DeleteTimestamp (if ts < b then a :: ts :: b :: rest2
            else a :: addAfterFirst (b :: rest2) ts) ts = a :: b :: rest2
          by_cases htb : ts < b
          · rw [if_pos htb]
            simp [DeleteTimestamp, ha]
          · rw [if_neg htb]
            simp only [DeleteTimestamp, if_neg ha]
            rw [ih hrest]

theorem DeleteTimestamp_AddTimestamp (l : List Nat) (ts : Nat) (h : ts ∉ l) :
    DeleteTimestamp (AddTimestamp l ts) ts = l := by
  unfold AddTimestamp
  rw [if_neg h]
  cases l with
  | nil => simp [DeleteTimestamp]
  | cons a rest => exact DeleteTimestamp_addAfterFirst (a :: rest) ts h

theorem dblEq_self (k : Nat) (h : isNanBits k = false) : dblEq k k = true := by
  unfold dblEq
  simp [h]

theorem getData_fresh (m : List (Nat × Value)) (k : Nat)
    (h : ∀ kv ∈ m, dblEq kv.1 k = false) : getData m k = none := by
  induction m with
  | nil => rfl
  | cons kv rest ih =>
      obtain ⟨k0, v0⟩ := kv
      show (if dblEq k0 k then some v0 else getData rest k) = none
      rw [if_neg (by simpa using h (k0, v0) (by simp)), ih (fun kv hkv => h kv (by simp [hkv]))]

theorem containsKeyData_fresh (m : List (Nat × Value)) (k : Nat)
    (h : ∀ kv ∈ m, dblEq kv.1 k = false) : containsKeyData m k = false := by
  unfold containsKeyData
  rw [getData_fresh m k h]
  rfl

theorem putData_fresh (m : List (Nat × Value)) (k : Nat) (v : Value)
    (h : ∀ kv ∈ m, dblEq kv.1 k = false) : putData m k v = m ++ [(k, v)] := by
  induction m with
  | nil => rfl
  | cons kv rest ih =>
      obtain ⟨k0, v0⟩ := kv
      show (if dblEq k0 k then (k0, v) :: rest else (k0, v0) :: putData rest k v) = _
      rw [if_neg (by simpa using h (k0, v0) (by simp)), ih (fun kv hkv => h kv (by simp [hkv]))]
      rfl

theorem getData_append_self (m : List (Nat × Value)) (k : Nat) (v : Value)
    (h : ∀ kv ∈ m, dblEq kv.1 k = false) (hk : dblEq k k = true) :
    getData (m ++ [(k, v)]) k = some v := by
  induction m with
  | nil =>
      show (if dblEq k k then some v else getData [] k) = some v
      rw [if_pos hk]
  | cons kv rest ih =>
      obtain ⟨k0, v0⟩ := kv
      show (if dblEq k0 k then some v0 else getData (rest ++ [(k, v)]) k) = some v
      rw [if_neg (by simpa using h (k0, v0) (by simp)), ih (fun kv hkv => h kv (by simp [hkv]))]

theorem removeData_append_self (m : List (Nat × Value)) (k : Nat) (v : Value)
    (h : ∀ kv ∈ m, dblEq kv.1 k = false) (hk : dblEq k k = true) :
    removeData (m ++ [(k, v)]) k = m := by
  induction m with
  | nil =>
      show (if dblEq k k then [] else _) = []
      rw [if_pos hk]
  | cons kv rest ih =>
      obtain ⟨k0, v0⟩ := kv
      show (if dblEq k0 k then rest ++ [(k, v)] else (k0, v0) :: removeData (rest ++ [(k, v)]) k) = _
      rw [if_neg (by simpa using h (k0, v0) (by simp)), ih (fun kv hkv => h kv (by simp [hkv]))]

theorem count_zero (rl : List ResourceData) (ts : Nat)
    (hfresh : ∀ c ∈ rl, ∀ kv ∈ c.data, dblEq kv.1 ts = false) :
    (rl.filter fun c => containsKeyData c.data ts).length = 0 := by
  have : rl.filter (fun c => containsKeyData c.data ts) = [] := by
    rw [List.filter_eq_nil_iff]
    intro c hc
    rw [containsKeyData_fresh _ _ (hfresh c hc)]
    simp
  rw [this]
  rfl

/-- Updating then deleting the fresh value restores the column list, when
the first matching column already exists with a nonempty table. -/
theorem rollback_update (rl : List ResourceData) (path : String) (ts : Nat) (v : Value)
    (hk : dblEq ts ts = true)
    (hfresh : ∀ c ∈ rl, ∀ kv ∈ c.data, dblEq kv.1 ts = false)
    (hne : ∀ c ∈ rl, c.data ≠ []) :
    deleteResourceLoop
      (updateColumn rl path fun c => { c with data := putData c.data ts v }) path ts = rl := by
  induction rl with
  | nil => rfl
  | cons c rest ih =>
      by_cases hname : c.name = path
      · show deleteResourceLoop
          ((if c.name = path then { c with data := putData c.data ts v } :: rest
            else c :: updateColumn rest path _)) path ts = c :: rest
        rw [if_pos hname]
        show (if ({ c with data := putData c.data ts v } : ResourceData).name = path then _ else _) = _
        rw [if_pos hname]
        have hfc := hfresh c (by simp)
        rw [putData_fresh _ _ _ hfc]
        have hcontains : containsKeyData (c.data ++ [(ts, v)]) ts = true := by
          unfold containsKeyData
          rw [getData_append_self _ _ _ hfc hk]
          rfl
        rw [hcontains, if_pos rfl, removeData_append_self _ _ _ hfc hk]
        rw [if_neg (by simpa using hne c (by simp))]
      · show deleteResourceLoop
          ((if c.name = path then _ else c :: updateColumn rest path _)) path ts = c :: rest
        rw [if_neg hname]
        show (if c.name = path then _ else c :: deleteResourceLoop (updateColumn rest path _) path ts) = _
        rw [if_neg hname,
          ih (fun c hc => hfresh c (by simp [hc])) (fun c hc => hne c (by simp [hc]))]

/-- A freshly created single-value column appended at the end of the list
is removed again by deletion. -/
theorem rollback_new (rl : List ResourceData) (c1 : ResourceData) (path : String) (ts : Nat)
    (h : ∀ c ∈ rl, ¬(c.name = path)) (hc1 : c1.name = path)
    (hcontains : containsKeyData c1.data ts = true)
    (hrem : (removeData c1.data ts).length = 0) :
    deleteResourceLoop (rl ++ [c1]) path ts = rl := by
  induction rl with
  | nil =>
      show (if c1.name = path then _ else _) = []
      rw [if_pos hc1, hcontains, if_pos rfl, if_pos hrem]
  | cons c rest ih =>
      show (if c.name = path then _ else c :: deleteResourceLoop (rest ++ [c1]) path ts) = c :: rest
      rw [if_neg (h c (by simp)), ih (fun c hc => h c (by simp [hc]))]

/-- Updating the first matching column commutes past fresh prefixes. -/
theorem updateColumn_append_fresh (rl : List ResourceData) (c0 : ResourceData) (path : String)
    (f : ResourceData → ResourceData) (h : ∀ c ∈ rl, ¬(c.name = path)) (hc0 : c0.name = path) :
    updateColumn (rl ++ [c0]) path f = rl ++ [f c0] := by
  induction rl with
  | nil =>
      show (if c0.name = path then f c0 :: [] else _) = [f c0]
      rw [if_pos hc0]
  | cons c rest ih =>
      show (if c.name = path then _ else c :: updateColumn (rest ++ [c0]) path f) = _
      rw [if_neg (h c (by simp)), ih (fun c hc => h c (by simp [hc]))]
      rfl

theorem Encode_noMemory_state (x : RecordData) (h : (Encode x).1 = .noMemory) : (Encode x).2 = x := by
  unfold Encode at h ⊢
  by_cases h1 : x.isEncoded
  · rw [if_pos h1] at h
    simp at h
  · rw [if_neg h1] at h ⊢
    by_cases h2 : encodeSize x ≤ MAX_CBOR_BUFFER_NUMBYTES
    · rw [if_pos h2] at h
      simp at h
    · rw [if_neg h2]

theorem sampleLoop_ignore_cache (tsl : List Nat) (rsl : List ResourceData) (tf : Nat)
    (b1 b2 : Bool) (prev : Option Nat) (l : List Nat) :
    sampleLoop ⟨tsl, rsl, tf, b1⟩ prev l = sampleLoop ⟨tsl, rsl, tf, b2⟩ prev l := by
  induction l generalizing prev with
  | nil => rfl
  | cons t rest ih =>
      show sampleRowItems _ prev t ++ sampleLoop _ (some t) rest
        = sampleRowItems _ prev t ++ sampleLoop _ (some t) rest
      rw [ih]
      rfl

theorem encodeBytes_set_isEncoded (r : RecordData) (b : Bool) :
    encodeBytes { r with isEncoded := b } = encodeBytes r := by
  obtain ⟨tsl, rsl, tf, enc⟩ := r
  show encodeBytes ⟨tsl, rsl, tf, b⟩ = encodeBytes ⟨tsl, rsl, tf, enc⟩
  unfold encodeBytes encodeItems encodeSampleItems
  rw [sampleLoop_ignore_cache tsl rsl tf b enc]
  rfl

theorem GetResourceData_notFound_iff (r : RecordData) (path : String) (t : DataType) :
    GetResourceData r path t = .notFound ↔
      r.resourceList.find? (fun c => c.name == path) = none := by
  unfold GetResourceData
  cases hf : r.resourceList.find? (fun c => c.name == path) with
  | none => simp
  | some c =>
      show (if c.type ≠ t then LeResult.fault else LeResult.ok) = .notFound ↔ some c = none
      by_cases ht : c.type ≠ t
      · rw [if_pos ht]
        simp
      · rw [if_neg ht]
        simp

theorem containsKeyData_single (ts : Nat) (v : Value) (hk : dblEq ts ts = true) :
    containsKeyData [(ts, v)] ts = true := by
  unfold containsKeyData
  show (if dblEq ts ts then some v else getData [] ts).isSome = true
  rw [hk]
  rfl

theorem removeData_single (ts : Nat) (v : Value) (hk : dblEq ts ts = true) :
    removeData [(ts, v)] ts = [] := by
  show (if dblEq ts ts then [] else (ts, v) :: removeData [] ts) = []
  rw [hk]
  rfl

/-- Rollback restoration for `add_sample`: when the call does not
overwrite any hashmap-equal key anywhere in the record, the timestamp is
fresh with a non-NaN bit pattern, and no column has an empty table, an
`LE_NO_MEMORY` outcome restores the record exactly (only the cache flag is
left invalidated), so a subsequent encode is byte-identical and succeeds
whenever the pre-state was encodable. -/
theorem c2_rollback_restores (r : RecordData) (path : String) (v : Value) (ts : Nat)
    (hnan : isNanBits ts = false)
    (hfresh : ∀ c ∈ r.resourceList, ∀ kv ∈ c.data, dblEq kv.1 ts = false)
    (hnotin : ts ∉ r.timestampList)
    (hne : ∀ c ∈ r.resourceList, c.data ≠ [])
    (hres : (addSample r path v ts).1 = .noMemory) :
    (addSample r path v ts).2 = { r with isEncoded := false } ∧
    encodeBytes (addSample r path v ts).2 = encodeBytes r ∧
    ((encodeBytes r).length ≤ MAX_CBOR_BUFFER_NUMBYTES →
      (Encode (addSample r path v ts).2).1 = .ok) := by
  have hk : dblEq ts ts = true := dblEq_self ts hnan
  obtain ⟨tsl, rsl, tf, enc⟩ := r
  simp only at hfresh hnotin hne hres
  have hmain : (addSample ⟨tsl, rsl, tf, enc⟩ path v ts).2 = ⟨tsl, rsl, tf, false⟩ := by
    by_cases hf : GetResourceData ⟨tsl, rsl, tf, enc⟩ path v.typeOf = .fault
    · have heq : addSample ⟨tsl, rsl, tf, enc⟩ path v ts = (.fault, ⟨tsl, rsl, tf, enc⟩) := by
        unfold addSample
        rw [if_pos hf]
      rw [heq] at hres
      simp at hres
    by_cases hnf : GetResourceData ⟨tsl, rsl, tf, enc⟩ path v.typeOf = .notFound
    · -- fresh path: column created, value added, both rolled back away
      have hnone := (GetResourceData_notFound_iff _ path v.typeOf).mp hnf
      have hnames : ∀ c ∈ rsl, ¬(c.name = path) := by
        intro c hc
        have := List.find?_eq_none.mp hnone c hc
        simpa using this
      by_cases hlen : LE_AVDATA_PATH_NAME_LEN ≤ path.length
      · have heq : addSample ⟨tsl, rsl, tf, enc⟩ path v ts
            = (.overflow, ⟨AddTimestamp tsl ts, rsl, tf, enc⟩) := by
          unfold addSample CreateResourceData
          rw [if_neg hf, if_pos hnf]
          dsimp only
          rw [if_pos hlen]
          rw [if_neg (by simp)]
        rw [heq] at hres
        simp at hres
      · have hcr : CreateResourceData ⟨AddTimestamp tsl ts, rsl, tf, enc⟩ path v.typeOf
            = (.ok, ⟨AddTimestamp tsl ts,
                rsl ++ [⟨path, v.typeOf, [], factorBitsInit v.typeOf⟩], tf, enc⟩) := by
          unfold CreateResourceData
          rw [if_neg hlen]
        have heq1 : addSample ⟨tsl, rsl, tf, enc⟩ path v ts
            = addResourceValue ⟨AddTimestamp tsl ts,
                rsl ++ [⟨path, v.typeOf, [], factorBitsInit v.typeOf⟩], tf, enc⟩ path v ts := by
          unfold addSample
          rw [if_neg hf, if_pos hnf]
          dsimp only
          rw [hcr, if_pos rfl]
        have hupd : updateColumn (rsl ++ [⟨path, v.typeOf, [], factorBitsInit v.typeOf⟩]) path
              (fun c => { c with data := putData c.data ts v })
            = rsl ++ [⟨path, v.typeOf, [(ts, v)], factorBitsInit v.typeOf⟩] := by
          rw [updateColumn_append_fresh _ _ _ _ hnames rfl]
          rfl
        rw [heq1]
        unfold addResourceValue
        dsimp only
        rw [if_pos (mem_AddTimestamp tsl ts), hupd]
        by_cases hE : (Encode ⟨AddTimestamp tsl ts,
            rsl ++ [⟨path, v.typeOf, [(ts, v)], factorBitsInit v.typeOf⟩], tf, false⟩).1
            = .noMemory
        · rw [if_pos hE, Encode_noMemory_state _ hE]
          unfold DeleteData DeleteResourceData GetResourceDataTimestampCount
          dsimp only
          rw [if_pos (mem_AddTimestamp tsl ts)]
          rw [rollback_new rsl _ path ts hnames rfl
            (containsKeyData_single ts v hk) (by rw [removeData_single ts v hk]; rfl)]
          rw [if_pos (count_zero rsl ts hfresh)]
          rw [DeleteTimestamp_AddTimestamp tsl ts hnotin]
        · rw [if_neg hE]
          rw [heq1] at hres
          unfold addResourceValue at hres
          dsimp only at hres
          rw [if_pos (mem_AddTimestamp tsl ts), hupd, if_neg hE] at hres
          exact absurd hres hE
    · -- existing path with the right type
      have heq1 : addSample ⟨tsl, rsl, tf, enc⟩ path v ts
          = addResourceValue ⟨AddTimestamp tsl ts, rsl, tf, enc⟩ path v ts := by
        unfold addSample
        rw [if_neg hf, if_neg hnf]
      rw [heq1]
      unfold addResourceValue
      dsimp only
      rw [if_pos (mem_AddTimestamp tsl ts)]
      by_cases hE : (Encode ⟨AddTimestamp tsl ts,
          updateColumn rsl path (fun c => { c with data := putData c.data ts v }),
          tf, false⟩).1 = .noMemory
      · rw [if_pos hE, Encode_noMemory_state _ hE]
        unfold DeleteData DeleteResourceData GetResourceDataTimestampCount
        dsimp only
        rw [if_pos (mem_AddTimestamp tsl ts)]
        rw [rollback_update rsl path ts v hk hfresh hne]
        rw [if_pos (count_zero rsl ts hfresh)]
        rw [DeleteTimestamp_AddTimestamp tsl ts hnotin]
      · rw [if_neg hE]
        rw [heq1] at hres
        unfold addResourceValue at hres
        dsimp only at hres
        rw [if_pos (mem_AddTimestamp tsl ts), if_neg hE] at hres
        exact absurd hres hE
  refine ⟨hmain, ?_, ?_⟩
  · rw [hmain]
    exact encodeBytes_set_isEncoded ⟨tsl, rsl, tf, enc⟩ false
  · intro hsz
    rw [hmain]
    unfold Encode
    rw [if_neg (by simp)]
    rw [if_pos (by
      rw [encodeSize_eq_length]
      have := encodeBytes_set_isEncoded ⟨tsl, rsl, tf, enc⟩ false
      simp only at this
      rw [this]
      exact hsz)]

/-- A 254-character ASCII string used to fill the CBOR buffer. -/
def bigStr : String := String.mk (List.replicate 254 'a')

/-- Data table of the near-capacity test column: 254-byte strings at
timestamps 1..15 and a one-byte string at timestamp 16. -/
def data16 : List (Nat × Value) :=
  ((List.range 15).map fun i => (i + 1, Value.vStr bigStr)) ++ [(16, Value.vStr "a")]

/-- A record one small sample below the 4096-byte encoding bound. -/
def rPre : RecordData :=
  { timestampList := List.range' 1 16, resourceList := [⟨"x", .str, data16, 0⟩],
    timestampFactor := oneBits, isEncoded := false }

/-- Witness for the amended rollback claim: a concrete overflowing
`add_sample` at a fresh timestamp rolls back to a byte-identical record. -/
theorem c2_rollback_restores_witness :
    (addSample rPre "x" (.vStr bigStr) 17).1 = .noMemory ∧
    (addSample rPre "x" (.vStr bigStr) 17).2 = { rPre with isEncoded := false } ∧
    encodeBytes (addSample rPre "x" (.vStr bigStr) 17).2 = encodeBytes rPre ∧
    (Encode (addSample rPre "x" (.vStr bigStr) 17).2).1 = .ok :=
  ⟨by decide,
    (c2_rollback_restores rPre "x" (.vStr bigStr) 17 (by decide) (by decide) (by decide)
      (by decide) (by decide)).1,
    (c2_rollback_restores rPre "x" (.vStr bigStr) 17 (by decide) (by decide) (by decide)
      (by decide) (by decide)).2.1,
    (c2_rollback_restores rPre "x" (.vStr bigStr) 17 (by decide) (by decide) (by decide)
      (by decide) (by decide)).2.2
      (by rw [← encodeSize_eq_length]; decide)⟩

/-- Counterexample to claim C2 as stated: an `add_sample` call that
overwrites the value already stored for the same path and timestamp and
then fails with `OutOfSpace` does not restore the record — the overwritten
value is lost, the timestamp is dropped, and a subsequent encode is not
byte-identical to the pre-call encode. -/
theorem c2_claim_counterexample :
    (encodeBytes rPre).length ≤ MAX_CBOR_BUFFER_NUMBYTES ∧
    containsKeyData ((rPre.resourceList.get ⟨0, by decide⟩).data) 16 = true ∧
    (timeSeries_AddString rPre "x" bigStr 16).1 = .noMemory ∧
    encodeBytes (timeSeries_AddString rPre "x" bigStr 16).2 ≠ encodeBytes rPre := by
  refine ⟨?_, by decide, by decide, ?_⟩
  · rw [← encodeSize_eq_length]
    decide
  · intro h
    have hlen := congrArg List.length h
    rw [← encodeSize_eq_length, ← encodeSize_eq_length] at hlen
    revert hlen
    decide

/-! ## Claim theorems -/

/-- C1: refuted on the code — `AddTimestamp` compares the new timestamp
against the *next* node, so a timestamp smaller than every existing entry
is inserted after the head instead of before it: after adding samples at
timestamps 10 and then 5, the committed record's timestamp list is
`[10, 5]`, which is not strictly ascending. -/
theorem c1_addTimestamp_breaks_sorted_order :
    (timeSeries_AddInt (timeSeries_AddInt timeSeries_Create "x" 1 10).2 "x" 2 5).1 = .ok ∧
    ((timeSeries_AddInt (timeSeries_AddInt timeSeries_Create "x" 1 10).2 "x" 2 5).2).timestampList
      = [10, 5] ∧
    ¬ List.Chain' (· < ·)
      ((timeSeries_AddInt (timeSeries_AddInt timeSeries_Create "x" 1 10).2 "x" 2 5).2).timestampList ∧
    AddTimestamp [10] 5 = [10, 5] := by
  refine ⟨by decide, by decide, ?_, by decide⟩
  intro h
  rw [show ((timeSeries_AddInt (timeSeries_AddInt timeSeries_Create "x" 1 10).2 "x" 2 5).2).timestampList
      = [10, 5] from by decide] at h
  simp [List.chain'_cons] at h

/-- Modelled from the spec: a path name one character past the fixed
length bound. -/
def longPath : String := String.mk (List.replicate 128 'p')

/-- C9: refuted on the code — `timeSeries_AddInt` inserts the timestamp
before `CreateResourceData` validates the path length, and the
`LE_OVERFLOW` early return leaves the timestamp in the index with no
column holding any value for it. -/
theorem c9_dangling_timestamp :
    (timeSeries_AddInt timeSeries_Create longPath 1 5).1 = .overflow ∧
    ((timeSeries_AddInt timeSeries_Create longPath 1 5).2).timestampList = [5] ∧
    ((timeSeries_AddInt timeSeries_Create longPath 1 5).2).resourceList = [] := by
  exact ⟨by decide, by decide, by decide⟩

/-- C10: confirmed — the per-column store compares u64 keys through
IEEE-754 double equality, so the bit patterns of `+0.0` (0) and `-0.0`
(`2^63`) are one key: adding a value at timestamp `2^63` when one exists
at timestamp 0 replaces the timestamp-0 entry (the stored key stays 0),
while the timestamp index keeps both distinct integers. -/
theorem c10_negzero_key_aliases_zero :
    dblEq 0 (2 ^ 63) = true ∧ (0 : Nat) ≠ 2 ^ 63 ∧
    (timeSeries_AddInt (timeSeries_AddInt timeSeries_Create "x" 7 0).2 "x" 9 (2 ^ 63)).1 = .ok ∧
    ((timeSeries_AddInt (timeSeries_AddInt timeSeries_Create "x" 7 0).2
      "x" 9 (2 ^ 63)).2).timestampList = [0, 2 ^ 63] ∧
    (((timeSeries_AddInt (timeSeries_AddInt timeSeries_Create "x" 7 0).2
      "x" 9 (2 ^ 63)).2).resourceList.map fun c => c.data) = [[(0, .vInt 9)]] := by
  exact ⟨by decide, by decide, by decide, by decide, by decide⟩

/-- Record used as the C7 counterexample: two columns with one value each. -/
def rC7 : RecordData :=
  { timestampList := [10],
    resourceList := [⟨"x", .int, [(10, .vInt 1)], oneBits⟩, ⟨"y", .int, [(10, .vInt 2)], oneBits⟩],
    timestampFactor := oneBits, isEncoded := false }

/-- Counterexample to claim C7 as stated: deleting the only value of
column `"x"` removes the column itself from the record (the C code
releases a resource whose hashmap becomes empty), so columns do not
persist until reset or push. -/
theorem c7_counterexample :
    ((DeleteData rC7 "x" 10).resourceList.map fun c => c.name) = ["y"] ∧
    (∀ c ∈ (DeleteData rC7 "x" 10).resourceList, c.name ≠ "x") := by
  exact ⟨by decide, by decide⟩

theorem deleteResourceLoop_preserves (rl : List ResourceData) (path : String) (ts : Nat) :
    ∀ c ∈ rl, (removeData c.data ts).length ≠ 0 →
      ∃ c2 ∈ deleteResourceLoop rl path ts, c2.name = c.name ∧
        (c2.data = c.data ∨ c2.data = removeData c.data ts) := by
  induction rl with
  | nil => intro c hc; simp at hc
  | cons h rest ih =>
      intro c hc hcne
      by_cases hname : h.name = path
      · by_cases hhas : containsKeyData h.data ts = true
        · by_cases hempty : (removeData h.data ts).length = 0
          · have hd : deleteResourceLoop (h :: rest) path ts = rest := by
              show (if h.name = path then _ else _) = rest
              rw [if_pos hname, hhas, if_pos rfl, if_pos hempty]
            rw [hd]
            rcases List.mem_cons.mp hc with hch | hcr
            · exact absurd (hch ▸ hempty) hcne
            · exact ⟨c, hcr, rfl, Or.inl rfl⟩
          · have hd : deleteResourceLoop (h :: rest) path ts
                = { h with data := removeData h.data ts } :: rest := by
              show (if h.name = path then _ else _) = _
              rw [if_pos hname, hhas, if_pos rfl, if_neg hempty]
            rw [hd]
            rcases List.mem_cons.mp hc with hch | hcr
            · subst hch
              exact ⟨{ c with data := removeData c.data ts }, by simp, rfl, Or.inr rfl⟩
            · exact ⟨c, by simp [hcr], rfl, Or.inl rfl⟩
        · have hd : deleteResourceLoop (h :: rest) path ts = h :: rest := by
            show (if h.name = path then _ else _) = _
            rw [if_pos hname, if_neg hhas]
          rw [hd]
          exact ⟨c, hc, rfl, Or.inl rfl⟩
      · have hd : deleteResourceLoop (h :: rest) path ts = h :: deleteResourceLoop rest path ts := by
          show (if h.name = path then _ else _) = _
          rw [if_neg hname]
        rw [hd]
        rcases List.mem_cons.mp hc with hch | hcr
        · exact ⟨c, by simp [hch], rfl, Or.inl rfl⟩
        · obtain ⟨c2, hc2, hn, hdata⟩ := ih c hcr hcne
          exact ⟨c2, by simp [hc2], hn, hdata⟩

/-- C7 amended: a column persists through a deletion exactly when it keeps
at least one value; only a column whose table becomes empty is removed. -/
theorem c7_amended_columns_persist_unless_empty (r : RecordData) (path : String) (ts : Nat) :
    ∀ c ∈ r.resourceList, (removeData c.data ts).length ≠ 0 →
      ∃ c2 ∈ (DeleteData r path ts).resourceList, c2.name = c.name ∧
        (c2.data = c.data ∨ c2.data = removeData c.data ts) := by
  intro c hc hne
  unfold DeleteData DeleteResourceData
  by_cases hmem : ts ∈ r.timestampList
  · rw [if_pos hmem]
    by_cases hcount : GetResourceDataTimestampCount
        { r with resourceList := deleteResourceLoop r.resourceList path ts } ts = 0
    · rw [if_pos hcount]
      exact deleteResourceLoop_preserves r.resourceList path ts c hc hne
    · rw [if_neg hcount]
      exact deleteResourceLoop_preserves r.resourceList path ts c hc hne
  · rw [if_neg hmem]
    exact ⟨c, hc, rfl, Or.inl rfl⟩

theorem c7_amended_witness :
    ∃ c2 ∈ (DeleteData rPre "x" 16).resourceList, c2.name = "x" ∧
      (c2.data = data16 ∨ c2.data = removeData data16 16) :=
  c7_amended_columns_persist_unless_empty rPre "x" 16 ⟨"x", .str, data16, 0⟩ (by decide) (by decide)

theorem Encode_result (x : RecordData) : (Encode x).1 = .ok ∨ (Encode x).1 = .noMemory := by
  unfold Encode
  by_cases h1 : x.isEncoded
  · rw [if_pos h1]
    exact Or.inl rfl
  · rw [if_neg h1]
    by_cases h2 : encodeSize x ≤ MAX_CBOR_BUFFER_NUMBYTES
    · rw [if_pos h2]
      exact Or.inl rfl
    · rw [if_neg h2]
      exact Or.inr rfl

theorem Encode_fields (x : RecordData) :
    (Encode x).2.resourceList = x.resourceList ∧ (Encode x).2.timestampList = x.timestampList ∧
      encodeBytes (Encode x).2 = encodeBytes x := by
  unfold Encode
  by_cases h1 : x.isEncoded
  · rw [if_pos h1]
    exact ⟨rfl, rfl, rfl⟩
  · rw [if_neg h1]
    by_cases h2 : encodeSize x ≤ MAX_CBOR_BUFFER_NUMBYTES
    · rw [if_pos h2]
      exact ⟨rfl, rfl, encodeBytes_set_isEncoded x true⟩
    · rw [if_neg h2]
      exact ⟨rfl, rfl, rfl⟩

/-- C8: confirmed — `timeSeries_PushRecord` resets the record exactly when
the whole push (encode + transport send) succeeds: the post-state then has
no columns, no timestamps, timestamp factor 1 and an invalidated cache;
on any failure the columns, values and timestamps are untouched, so a
retry would re-encode byte-identical data. -/
theorem c8_push_reset_or_preserve (r : RecordData) (sendResult : LeResult) :
    ((timeSeries_PushRecord r sendResult).1 = .ok →
      (timeSeries_PushRecord r sendResult).2
        = { timestampList := [], resourceList := [], timestampFactor := oneBits,
            isEncoded := false }) ∧
    ((timeSeries_PushRecord r sendResult).1 ≠ .ok →
      (timeSeries_PushRecord r sendResult).2.resourceList = r.resourceList ∧
      (timeSeries_PushRecord r sendResult).2.timestampList = r.timestampList ∧
      encodeBytes (timeSeries_PushRecord r sendResult).2 = encodeBytes r) := by
  unfold timeSeries_PushRecord
  by_cases hE : (Encode r).1 = .ok
  · rw [if_pos hE]
    by_cases hs : sendResult = .ok
    · rw [if_pos hs]
      exact ⟨fun _ => rfl, fun h => absurd rfl h⟩
    · rw [if_neg hs]
      exact ⟨fun h => absurd h hs, fun _ => Encode_fields r⟩
  · rw [if_neg hE]
    exact ⟨fun h => absurd h hE, fun _ => Encode_fields r⟩

/-- Small committed record used by several witnesses. -/
def rSmall : RecordData := (timeSeries_AddInt timeSeries_Create "x" 1 10).2

theorem c8_push_witness :
    (timeSeries_PushRecord rSmall .ok).2
      = { timestampList := [], resourceList := [], timestampFactor := oneBits,
          isEncoded := false } ∧
    (timeSeries_PushRecord rSmall .fault).2.timestampList = rSmall.timestampList :=
  ⟨(c8_push_reset_or_preserve rSmall .ok).1 (by decide),
    ((c8_push_reset_or_preserve rSmall .fault).2 (by decide)).2.1⟩

/-- C6: confirmed — an add call returns `LE_FAULT` (the `TypeMismatch`
error) exactly when the path already exists with a different type, and in
that case the record is completely unchanged. -/
theorem c6_type_mismatch_iff (r : RecordData) (path : String) (v : Value) (ts : Nat) :
    ((addSample r path v ts).1 = .fault ↔ GetResourceData r path v.typeOf = .fault) ∧
    (GetResourceData r path v.typeOf = .fault ↔
      ∃ c, r.resourceList.find? (fun c => c.name == path) = some c ∧ c.type ≠ v.typeOf) ∧
    ((addSample r path v ts).1 = .fault → (addSample r path v ts).2 = r) := by
  have hnotfault : ∀ (r0 : RecordData), ts ∈ r0.timestampList →
      (addResourceValue r0 path v ts).1 ≠ .fault := by
    intro r0 hmem
    unfold addResourceValue
    rw [if_pos hmem]
    by_cases hN : (Encode { r0 with resourceList := updateColumn r0.resourceList path (fun c => { c with data := putData c.data ts v }), isEncoded := false }).1 = .noMemory
    · rw [if_pos hN]
      simp
    · rw [if_neg hN]
      rcases Encode_result { r0 with resourceList := updateColumn r0.resourceList path (fun c => { c with data := putData c.data ts v }), isEncoded := false } with h | h
      · rw [h]
        simp
      · exact absurd h hN
  have hA : (addSample r path v ts).1 = .fault ↔ GetResourceData r path v.typeOf = .fault := by
    constructor
    · intro h
      by_contra hf
      unfold addSample at h
      rw [if_neg hf] at h
      by_cases hnf : GetResourceData r path v.typeOf = .notFound
      · rw [if_pos hnf] at h
        by_cases hok : (CreateResourceData { r with
            timestampList := AddTimestamp r.timestampList ts } path v.typeOf).1 = .ok
        · rw [if_pos hok] at h
          exact hnotfault _ (by
            have : (CreateResourceData { r with
                timestampList := AddTimestamp r.timestampList ts } path v.typeOf).2.timestampList
                = AddTimestamp r.timestampList ts := by
              unfold CreateResourceData
              by_cases hl : LE_AVDATA_PATH_NAME_LEN ≤ path.length
              · rw [if_pos hl]
              · rw [if_neg hl]
            rw [this]
            exact mem_AddTimestamp r.timestampList ts) h
        · rw [if_neg hok] at h
          unfold CreateResourceData at h hok
          by_cases hl : LE_AVDATA_PATH_NAME_LEN ≤ path.length
          · rw [if_pos hl] at h
            simp at h
          · rw [if_neg hl] at hok
            simp at hok
      · rw [if_neg hnf] at h
        exact hnotfault _ (mem_AddTimestamp r.timestampList ts) h
    · intro h
      unfold addSample
      rw [if_pos h]
  refine ⟨hA, ?_, ?_⟩
  · unfold GetResourceData
    cases hf : r.resourceList.find? (fun c => c.name == path) with
    | none => simp
    | some c =>
        show (if c.type ≠ v.typeOf then LeResult.fault else LeResult.ok) = .fault ↔ _
        by_cases ht : c.type ≠ v.typeOf
        · rw [if_pos ht]
          simp [ht]
        · rw [if_neg ht]
          simp [ht]
  · intro h
    have hf := hA.mp h
    unfold addSample
    rw [if_pos hf]

/-- Record with an int column used by the C6 witness. -/
def rMM : RecordData := (timeSeries_AddInt timeSeries_Create "x" 1 10).2

theorem c6_witness :
    (addSample rMM "x" (.vBool true) 11).1 = .fault ∧
    (addSample rMM "x" (.vBool true) 11).2 = rMM :=
  ⟨((c6_type_mismatch_iff rMM "x" (.vBool true) 11).1).mpr (by decide),
    (c6_type_mismatch_iff rMM "x" (.vBool true) 11).2.2
      (((c6_type_mismatch_iff rMM "x" (.vBool true) 11).1).mpr (by decide))⟩

/-- C3: confirmed — the encoder's item stream is one top-level map with
exactly the three members `"h"`, `"f"`, `"s"` in that order; the header
array holds the column names in creation order with length equal to the
column count, and the factor array holds the timestamp factor followed by
the per-column factors, with length equal to the column count plus one. -/
theorem c3_encode_shape (r : RecordData) :
    encodeItems r
      = Item.mapHead NUM_TIME_SERIES_MAPS :: Item.textI "h"
        :: Item.arrayHead r.resourceList.length
        :: ((r.resourceList.map fun c => Item.textI c.name)
        ++ Item.textI "f" :: Item.arrayHead (r.resourceList.length + 1)
        :: Item.doubleI r.timestampFactor
        :: ((r.resourceList.map fun c => Item.doubleI c.factor)
        ++ Item.textI "s"
        :: Item.arrayHead ((r.resourceList.length + 1) * r.timestampList.length)
        :: encodeSampleItems r)) ∧
    (r.resourceList.map fun c => Item.textI c.name).length = r.resourceList.length ∧
    (Item.doubleI r.timestampFactor :: (r.resourceList.map fun c => Item.doubleI c.factor)).length
      = r.resourceList.length + 1 ∧
    NUM_TIME_SERIES_MAPS = 3 := by
  refine ⟨?_, by simp, by simp, rfl⟩
  unfold encodeItems encodeHeaderItems encodeFactorItems GetResourceCount GetTimestampCount
  simp

/-! ## Row addressing in the flat sample array -/

theorem sampleRowItems_length (r : RecordData) (prev : Option Nat) (t : Nat) :
    (sampleRowItems r prev t).length = r.resourceList.length + 1 := by
  simp [sampleRowItems]

theorem sampleLoop_get_ts0 (r : RecordData) (prev : Option Nat) (t : Nat) (rest : List Nat) :
    (sampleLoop r prev (t :: rest)).get? 0
      = some (.uintI (tsEncVal r.timestampFactor prev t)) := by
  show (sampleRowItems r prev t ++ sampleLoop r (some t) rest).get? 0 = _
  rfl

theorem sampleLoop_get_skip (r : RecordData) (prev : Option Nat) (t : Nat) (rest : List Nat)
    (n : Nat) :
    (sampleLoop r prev (t :: rest)).get? (r.resourceList.length + 1 + n)
      = (sampleLoop r (some t) rest).get? n := by
  show (sampleRowItems r prev t ++ sampleLoop r (some t) rest).get? _ = _
  rw [List.get?_append_right (by rw [sampleRowItems_length]; omega)]
  rw [sampleRowItems_length]
  congr 1
  omega

theorem sampleLoop_get_cell0 (r : RecordData) (prev : Option Nat) (t : Nat) (rest : List Nat)
    (j : Nat) (c : ResourceData) (hc : r.resourceList.get? j = some c) :
    (sampleLoop r prev (t :: rest)).get? (j + 1) = some (valueItemFor c prev t) := by
  have hj : j < r.resourceList.length := by
    by_contra hj
    rw [List.get?_eq_none.mpr (by omega)] at hc
    exact absurd hc (by simp)
  show (sampleRowItems r prev t ++ sampleLoop r (some t) rest).get? (j + 1) = _
  rw [List.get?_append (by rw [sampleRowItems_length]; omega)]
  show (Item.uintI _ :: (r.resourceList.map fun c => valueItemFor c prev t)).get? (j + 1) = _
  rw [List.get?_cons_succ, List.get?_map, hc]
  rfl

theorem sampleLoop_ts_delta (r : RecordData) (hfac : r.timestampFactor = oneBits) :
    ∀ (l : List Nat) (prev : Option Nat) (i p t : Nat),
      l.get? i = some p → l.get? (i + 1) = some t →
      p ≤ t → t - p < 2 ^ 32 → t < 2 ^ 64 →
      (sampleLoop r prev l).get? ((i + 1) * (r.resourceList.length + 1))
        = some (.uintI (t - p)) := by
  intro l
  induction l with
  | nil =>
      intro prev i p t hp ht hple hdel htb
      simp at hp
  | cons a l2 ih =>
      intro prev i p t hp ht hple hdel htb
      cases i with
      | zero =>
          have ha : a = p := by simpa using hp
          have h2 : l2.get? 0 = some t := by simpa using ht
          cases l2 with
          | nil => simp at h2
          | cons b l3 =>
              have hb : b = t := by simpa using h2
              subst ha hb
              rw [show (0 + 1) * (r.resourceList.length + 1)
                  = r.resourceList.length + 1 + 0 from by ring]
              rw [sampleLoop_get_skip, sampleLoop_get_ts0, hfac,
                tsEncVal_one_delta a b hple hdel htb]
      | succ i2 =>
          have hp2 : l2.get? i2 = some p := by simpa using hp
          have ht2 : l2.get? (i2 + 1) = some t := by simpa using ht
          rw [show (i2 + 1 + 1) * (r.resourceList.length + 1)
              = r.resourceList.length + 1 + (i2 + 1) * (r.resourceList.length + 1) from by ring]
          rw [sampleLoop_get_skip]
          exact ih (some a) i2 p t hp2 ht2 hple hdel htb

/-- C4 amended: with the default timestamp factor 1, a strictly ascending
timestamp index whose first entry is below `2^53` and whose consecutive
deltas are below `2^32`, the encoder emits the rows in index order, the
first row's encoded timestamp is `t0` (times factor 1), and row `i+1`
carries exactly the delta `t_{i+1} - t_i` (times factor 1).  Without the
delta bound the code truncates the difference through the 32-bit
`uint deltaTimestamp`. -/
theorem c4_encode_timestamp_rows (r : RecordData) (hfac : r.timestampFactor = oneBits)
    (hsorted : List.Chain' (· < ·) r.timestampList)
    (hbound : ∀ t ∈ r.timestampList, t < 2 ^ 64)
    (hfirst : ∀ t, r.timestampList.get? 0 = some t → t < 2 ^ 53)
    (hdelta : ∀ i p t, r.timestampList.get? i = some p →
      r.timestampList.get? (i + 1) = some t → t - p < 2 ^ 32) :
    (∀ t, r.timestampList.get? 0 = some t →
      (encodeSampleItems r).get? 0 = some (.uintI t)) ∧
    (∀ i p t, r.timestampList.get? i = some p → r.timestampList.get? (i + 1) = some t →
      p < t ∧
      (encodeSampleItems r).get? ((i + 1) * (r.resourceList.length + 1))
        = some (.uintI (t - p))) := by
  constructor
  · intro t ht
    have h53 := hfirst t ht
    cases hl : r.timestampList with
    | nil =>
        rw [hl] at ht
        simp at ht
    | cons a rest =>
        rw [hl] at ht
        have ha : a = t := by simpa using ht
        subst ha
        unfold encodeSampleItems
        rw [hl, sampleLoop_get_ts0, hfac, tsEncVal_one_first a h53]
  · intro i p t hp ht
    have hip : i < r.timestampList.length := by
      by_contra hi
      rw [List.get?_eq_none.mpr (by omega)] at hp
      exact absurd hp (by simp)
    have hit : i + 1 < r.timestampList.length := by
      by_contra hi
      rw [List.get?_eq_none.mpr (by omega)] at ht
      exact absurd ht (by simp)
    have hlt : p < t := by
      have hchain := List.chain'_iff_get.mp hsorted i (by omega)
      rw [List.get?_eq_get hip] at hp
      rw [List.get?_eq_get hit] at ht
      have hp2 : r.timestampList.get ⟨i, hip⟩ = p := by simpa using hp
      have ht2 : r.timestampList.get ⟨i + 1, hit⟩ = t := by simpa using ht
      rw [hp2, ht2] at hchain
      exact hchain
    refine ⟨hlt, ?_⟩
    unfold encodeSampleItems
    exact sampleLoop_ts_delta r hfac r.timestampList none i p t hp ht (by omega)
      (hdelta i p t hp ht) (hbound t (List.get?_mem ht))

/-- Record with timestamps 10, 20 and int values 1, 2 — the spec's own
delta example. -/
def rDelta : RecordData :=
  (timeSeries_AddInt (timeSeries_AddInt timeSeries_Create "x" 1 10).2 "x" 2 20).2

theorem c4_encode_timestamp_rows_witness :
    (encodeSampleItems rDelta).get? 0 = some (.uintI 10) ∧
    (encodeSampleItems rDelta).get? ((0 + 1) * (rDelta.resourceList.length + 1))
      = some (.uintI (20 - 10)) := by
  have hl : rDelta.timestampList = [10, 20] := by decide
  have h := c4_encode_timestamp_rows rDelta (by decide)
    (by rw [hl]; exact List.chain'_cons.mpr ⟨by decide, List.chain'_singleton _⟩)
    (by intro t ht; rw [hl] at ht; simp at ht; omega)
    (by intro t ht; rw [hl] at ht; simp at ht; omega)
    (by
      intro i p t hp ht
      rw [hl] at hp ht
      rcases i with _ | _ | i
      · simp at hp ht
        omega
      · simp at ht
      · simp at hp)
  exact ⟨h.1 10 (by decide), (h.2 0 10 20 (by decide) (by decide)).2⟩

/-- Counterexample to claim C4 as stated: at a delta of `2^32` (timestamps
0 and `2^32`, factor 1) the second row's encoded timestamp is 0, not
`2^32 * 1` — the C code narrows the `uint64_t` difference through the
32-bit `uint deltaTimestamp`. -/
theorem c4_claim_counterexample :
    (timeSeries_AddInt (timeSeries_AddInt timeSeries_Create "x" 1 0).2 "x" 2 (2 ^ 32)).1
      = .ok ∧
    ((timeSeries_AddInt (timeSeries_AddInt timeSeries_Create "x" 1 0).2
      "x" 2 (2 ^ 32)).2).timestampList = [0, 2 ^ 32] ∧
    (encodeSampleItems ((timeSeries_AddInt (timeSeries_AddInt timeSeries_Create "x" 1 0).2
      "x" 2 (2 ^ 32)).2)).get? 2 = some (.uintI 0) ∧
    (0 : Nat) ≠ 2 ^ 32 * 1 := by
  exact ⟨by decide, by decide, by decide, by decide⟩

/-! ## C5: per-cell value encoding -/

/-- Well-formedness of a stored value for its column type: the tag matches
the type, ints are in the `int32_t` range the C API accepts, float bit
patterns fit 64 bits and are not NaN. -/
def valueWFb : DataType → Value → Bool
  | .int, .vInt i => decide (-(2 ^ 31) ≤ i) && decide (i < 2 ^ 31)
  | .float, .vFloat b => decide (b < 2 ^ 64) && !(isNanBits b)
  | .bool, .vBool _ => true
  | .str, .vStr _ => true
  | _, _ => false

/-- The spec's `previous_value_at_prior_row` for an int column: the stored
value at the prior row's timestamp, or 0 when the column has none there. -/
def specPrevInt (c : ResourceData) (p : Nat) : Int :=
  if containsKeyData c.data p then ((getData c.data p).getD (.vInt 0)).asInt else 0

/-- The spec's `previous_value_at_prior_row` for a float column (bits of
0.0 when the column has no value at the prior row). -/
def specPrevFloat (c : ResourceData) (p : Nat) : Nat :=
  if containsKeyData c.data p then ((getData c.data p).getD (.vFloat 0)).asFloat else 0

/-- The cell value as claim C5's words describe it, written from the spec,
not from the code: default when the column has no value at the row;
otherwise int/float emit `(current − previous_value_at_prior_row) ×
factor` (first row: `current × factor`, no subtraction) and bool/string
emit the raw value.  For an int column the `× factor` is the identity
(the factor of an int column is the default 1.0, a hypothesis of the
comparison theorem), so the spec formula is the exact integer
difference. -/
def specCellValue (c : ResourceData) (prev : Option Nat) (t : Nat) : Item :=
  if containsKeyData c.data t then
    match c.type with
    | .int =>
        match prev with
        | none => .intI (((getData c.data t).getD (.vInt 0)).asInt)
        | some p => .intI (((getData c.data t).getD (.vInt 0)).asInt - specPrevInt c p)
    | .float =>
        match prev with
        | none => .doubleI (f64mul (((getData c.data t).getD (.vFloat 0)).asFloat) c.factor)
        | some p =>
            .doubleI (f64mul (f64sub (((getData c.data t).getD (.vFloat 0)).asFloat)
              (specPrevFloat c p)) c.factor)
    | .bool => .boolI (((getData c.data t).getD (.vBool false)).asBool)
    | .str => .textI (((getData c.data t).getD (.vStr "")).asStr)
  else defaultItem c.type

theorem getData_mem : ∀ (m : List (Nat × Value)) (k : Nat) (v : Value),
    getData m k = some v → ∃ kv ∈ m, kv.2 = v := by
  intro m
  induction m with
  | nil =>
      intro k v h
      simp [getData] at h
  | cons kv0 rest ih =>
      intro k v h
      obtain ⟨k0, v0⟩ := kv0
      simp only [getData] at h
      by_cases hd : dblEq k0 k
      · rw [if_pos hd] at h
        exact ⟨(k0, v0), by simp, by simpa using Option.some.inj h⟩
      · rw [if_neg hd] at h
        obtain ⟨kv2, hm, hv⟩ := ih k v h
        exact ⟨kv2, by simp [hm], hv⟩

theorem wrap32_eq_self (d : Int) (h1 : -(2 ^ 31) ≤ d) (h2 : d < 2 ^ 31) : wrap32 d = d := by
  unfold wrap32
  omega

theorem valueItemFor_eq_spec (c : ResourceData) (prev : Option Nat) (t : Nat)
    (hfac : c.factor = factorBitsInit c.type)
    (hwf : ∀ kv ∈ c.data, valueWFb c.type kv.2 = true)
    (hdel : c.type = DataType.int → ∀ kv ∈ c.data, ∀ kw ∈ c.data,
      -(2 ^ 31) ≤ kv.2.asInt - kw.2.asInt ∧ kv.2.asInt - kw.2.asInt < 2 ^ 31) :
    valueItemFor c prev t = specCellValue c prev t := by
  obtain ⟨nm, ty, dat, fac⟩ := c
  dsimp only at hfac hwf hdel
  have hdB : ∀ (p : Nat), ty = DataType.int → ∀ (i : Int),
      getData dat t = some (.vInt i) →
      -(2 ^ 31) ≤ i - (if containsKeyData dat p then
          ((getData dat p).getD (Value.vInt 0)).asInt else 0) ∧
      i - (if containsKeyData dat p then
          ((getData dat p).getD (Value.vInt 0)).asInt else 0) < 2 ^ 31 := by
    intro p hty i hgi
    subst hty
    obtain ⟨kv, hm, he⟩ := getData_mem dat t _ hgi
    by_cases hcp : containsKeyData dat p
    · rw [if_pos hcp]
      cases hgp : getData dat p with
      | none =>
          unfold containsKeyData at hcp
          rw [hgp] at hcp
          simp at hcp
      | some w =>
          have hwv : valueWFb DataType.int w = true := by
            obtain ⟨kw, hm2, he2⟩ := getData_mem dat p w hgp
            rw [← he2]
            exact hwf kw hm2
          cases w with
          | vInt j =>
              obtain ⟨kw, hm2, he2⟩ := getData_mem dat p _ hgp
              have hdel2 := hdel rfl kv hm kw hm2
              rw [he, he2] at hdel2
              dsimp only [Value.asInt] at hdel2
              dsimp only [Option.getD, Value.asInt]
              exact hdel2
          | vFloat b => simp [valueWFb] at hwv
          | vBool b => simp [valueWFb] at hwv
          | vStr s2 => simp [valueWFb] at hwv
    · rw [if_neg hcp]
      have hcv : valueWFb DataType.int (Value.vInt i) = true := by
        rw [← he]
        exact hwf kv hm
      simp only [valueWFb, Bool.and_eq_true, decide_eq_true_eq] at hcv
      omega
  unfold valueItemFor specCellValue
  dsimp only
  by_cases hct : containsKeyData dat t
  · rw [if_pos hct, if_pos hct]
    have hsome : (getData dat t).isSome := hct
    cases hg : getData dat t with
    | none =>
        rw [hg] at hsome
        simp at hsome
    | some v =>
        have hv : valueWFb ty v = true := by
          obtain ⟨kv, hm, he⟩ := getData_mem dat t v hg
          rw [← he]
          exact hwf kv hm
        cases ty with
        | int =>
            have hfac1 : fac = oneBits := by rw [hfac]; rfl
            cases v with
            | vInt i =>
                simp only [valueWFb, Bool.and_eq_true, decide_eq_true_eq] at hv
                unfold deltaItem
                dsimp only
                rw [hg]
                cases prev with
                | none =>
                    dsimp only [Option.getD, Value.asInt]
                    rw [hfac1, f64_int_chain i (by omega)]
                | some p =>
                    have hd := hdB p rfl i hg
                    unfold specPrevInt
                    dsimp only
                    rw [show ((some (Value.vInt i)).getD (Value.vInt 0)).asInt = i from rfl]
                    rw [hfac1, wrap32_eq_self _ hd.1 hd.2, f64_int_chain _ (by omega)]
            | vFloat b => simp [valueWFb] at hv
            | vBool b => simp [valueWFb] at hv
            | vStr s2 => simp [valueWFb] at hv
        | float =>
            have hfac1 : fac = oneBits := by rw [hfac]; rfl
            cases v with
            | vFloat b =>
                simp only [valueWFb, Bool.and_eq_true, decide_eq_true_eq,
                  Bool.not_eq_true'] at hv
                unfold deltaItem
                dsimp only
                rw [hg]
                cases prev with
                | none =>
                    dsimp only [Option.getD, Value.asFloat]
                    rw [hfac1, f64mul_one b hv.1 hv.2]
                | some p =>
                    unfold specPrevFloat
                    dsimp only [Option.getD, Value.asFloat]
            | vInt i => simp [valueWFb] at hv
            | vBool b2 => simp [valueWFb] at hv
            | vStr s2 => simp [valueWFb] at hv
        | bool =>
            unfold deltaItem
            rw [hg]
        | str =>
            unfold deltaItem
            rw [hg]
  · rw [if_neg hct, if_neg hct]

/-- The timestamp of the row preceding row `i` when the rows before the
current list were headed by `prev` (none for row 0 of the record). -/
def prevAt (prev : Option Nat) (l : List Nat) : Nat → Option Nat
  | 0 => prev
  | i + 1 => l.get? i

theorem sampleLoop_cell (r : RecordData) (j : Nat) (c : ResourceData)
    (hc : r.resourceList.get? j = some c) :
    ∀ (l : List Nat) (prev : Option Nat) (i t : Nat), l.get? i = some t →
      (sampleLoop r prev l).get? (i * (r.resourceList.length + 1) + (j + 1))
        = some (valueItemFor c (prevAt prev l i) t) := by
  intro l
  induction l with
  | nil =>
      intro prev i t ht
      simp at ht
  | cons a l2 ih =>
      intro prev i t ht
      cases i with
      | zero =>
          have ha : a = t := by simpa using ht
          subst ha
          rw [show 0 * (r.resourceList.length + 1) + (j + 1) = j + 1 from by ring]
          rw [sampleLoop_get_cell0 r prev a l2 j c hc]
          rfl
      | succ i2 =>
          have ht2 : l2.get? i2 = some t := by simpa using ht
          rw [show (i2 + 1) * (r.resourceList.length + 1) + (j + 1)
              = r.resourceList.length + 1 + (i2 * (r.resourceList.length + 1) + (j + 1))
              from by ring]
          rw [sampleLoop_get_skip, ih (some a) i2 t ht2]
          have hpv : prevAt (some a) l2 i2 = prevAt prev (a :: l2) (i2 + 1) := by
            cases i2 <;> rfl
          rw [hpv]

/-- C5 amended: in a record whose columns carry the default factor for
their type, well-typed stored values (ints in the `int32_t` range, float
bit patterns 64-bit and non-NaN), and whose int columns hold values any
two of which differ by less than `2^31` in magnitude — so the 32-bit
`int` subtraction of `EncodeResourceDeltaValue` cannot wrap — the
encoder's cell for row `i` and column `j` (flat index
`i*(columns+1) + (j+1)`) is exactly what the spec describes: the type's
default when the column has no value at that row's timestamp; otherwise,
for int the exact difference from the value at the prior row's timestamp
(0 when absent; first row: the value itself), for float
`(current − previous) × factor` in double arithmetic (first row:
`current × factor`), and for bool/string the raw value.  Without the
difference bound the `int` wrap makes the claim fail at reachable
inputs. -/
theorem c5_cell_values (r : RecordData)
    (hwf : ∀ c ∈ r.resourceList, c.factor = factorBitsInit c.type ∧
      ∀ kv ∈ c.data, valueWFb c.type kv.2 = true)
    (hdel : ∀ c ∈ r.resourceList, c.type = DataType.int →
      ∀ kv ∈ c.data, ∀ kw ∈ c.data,
        -(2 ^ 31) ≤ kv.2.asInt - kw.2.asInt ∧ kv.2.asInt - kw.2.asInt < 2 ^ 31) :
    ∀ i t j c, r.timestampList.get? i = some t → r.resourceList.get? j = some c →
      (encodeSampleItems r).get? (i * (r.resourceList.length + 1) + (j + 1))
        = some (specCellValue c (prevAt none r.timestampList i) t) := by
  intro i t j c ht hc
  unfold encodeSampleItems
  rw [sampleLoop_cell r j c hc r.timestampList none i t ht]
  have hcm : c ∈ r.resourceList := List.get?_mem hc
  rw [valueItemFor_eq_spec c _ t (hwf c hcm).1 (hwf c hcm).2 (hdel c hcm)]

/-- The spec's delta example extended with a sparse second column: `"x"`
(int) holds 5 at timestamp 10 and 8 at timestamp 20; `"y"` (int) holds 9
at timestamp 20 only. -/
def rC5 : RecordData :=
  (timeSeries_AddInt (timeSeries_AddInt
    (timeSeries_AddInt timeSeries_Create "x" 5 10).2 "x" 8 20).2 "y" 9 20).2

theorem c5_cell_values_witness :
    (encodeSampleItems rC5).get? (1 * (rC5.resourceList.length + 1) + (0 + 1))
      = some (.intI 3) ∧
    (encodeSampleItems rC5).get? (0 * (rC5.resourceList.length + 1) + (1 + 1))
      = some (.intI 0) := by
  have h := c5_cell_values rC5 (by decide) (by decide)
  have h1 := h 1 20 0 ⟨"x", .int, [(10, .vInt 5), (20, .vInt 8)], oneBits⟩
    (by decide) (by decide)
  have h2 := h 0 10 1 ⟨"y", .int, [(20, .vInt 9)], oneBits⟩ (by decide) (by decide)
  exact ⟨by rw [h1]; decide, by rw [h2]; decide⟩

/-- Int column `"x"` holding `INT32_MIN` at timestamp 10 and `INT32_MAX`
at timestamp 20 — both values accepted by the API. -/
def rOvf : RecordData :=
  (timeSeries_AddInt (timeSeries_AddInt timeSeries_Create
    "x" (-(2 ^ 31)) 10).2 "x" (2 ^ 31 - 1) 20).2

/-- Counterexample to claim C5 as stated: for the reachable record
`rOvf` the spec's formula for row 1 of column `"x"` is
`(INT32_MAX − INT32_MIN) × 1 = 4294967295`, but the 32-bit `int`
subtraction in `EncodeResourceDeltaValue` wraps and the encoder emits
`-1`. -/
theorem c5_claim_counterexample :
    (encodeSampleItems rOvf).get? (1 * (rOvf.resourceList.length + 1) + (0 + 1))
      = some (.intI (-1)) ∧
    ((2 ^ 31 - 1 : Int) - (-(2 ^ 31))) * 1 = 4294967295 ∧
    (-1 : Int) ≠ 4294967295 := by
  exact ⟨by decide, by decide, by decide⟩

end TSD
